import Mathlib

/-
Verification of the WRS-Dojo core text engines against their specification.

Strings of the source language are modelled as `List Char`.  The two engines
under study are `parseWordToTiles` (the word-to-tile tokenizer) and
`parseLessonText` (the lesson text importer), both from src/App.tsx.  The
tokenizer's while-loop is modelled as one step function `tileStep` iterated
with fuel equal to the input length (the termination theorem shows this fuel
always suffices); the importer's single recursion site (the dictation-cell
reparse) is likewise modelled with explicit fuel, and the termination theorem
shows fuel `length + 1` always suffices.  `Math.random`-based id generation is
modelled by an explicit id stream `gen : Nat → List Char` together with a
counter that is threaded through every call, mirroring the global PRNG.
A thrown TypeError is modelled by the `Res.typeError` result.
-/

set_option maxRecDepth 8000

/-! ### Basic character and string helpers (JS string primitives) -/

def str (s : String) : List Char := s.data

def isWS (c : Char) : Bool := c = ' ' || c = '\t' || c = '\n' || c = '\r'

def isDigitC (c : Char) : Bool := 48 ≤ c.toNat && c.toNat ≤ 57

def isAsciiLetter (c : Char) : Bool :=
  (97 ≤ c.toNat && c.toNat ≤ 122) || (65 ≤ c.toNat && c.toNat ≤ 90)

def isLowerLetter (c : Char) : Bool := 97 ≤ c.toNat && c.toNat ≤ 122

/-- The character class `[a-zA-Z0-9]` of the suffix/prefix regexes. -/
def isAlnum (c : Char) : Bool := isAsciiLetter c || isDigitC c

/-- ASCII fragment of JavaScript `toLowerCase` (the inputs at issue are ASCII). -/
def toLowerC (c : Char) : Char :=
  if 65 ≤ c.toNat && c.toNat ≤ 90 then Char.ofNat (c.toNat + 32) else c

def lowerL (l : List Char) : List Char := l.map toLowerC

/-- JavaScript `String.prototype.trim` (ASCII whitespace fragment). -/
def trim (l : List Char) : List Char :=
  ((l.dropWhile isWS).reverse.dropWhile isWS).reverse

/-- `leadsWith pat s` is JavaScript `s.startsWith(pat)`. -/
def leadsWith : List Char → List Char → Bool
  | [], _ => true
  | _ :: _, [] => false
  | p :: ps, c :: cs => p == c && leadsWith ps cs

/-- `containsSub needle hay` is JavaScript `hay.includes(needle)`. -/
def containsSub : List Char → List Char → Bool
  | needle, [] => needle.isEmpty
  | needle, c :: rest => leadsWith needle (c :: rest) || containsSub needle rest

/-- Split on every character satisfying `p` (JS `split` with a single-char
alternation regex, e.g. `split('\n')` or `split(/,|\n/)`). -/
def splitOnP (p : Char → Bool) : List Char → List (List Char)
  | [] => [[]]
  | c :: rest =>
    if p c then [] :: splitOnP p rest
    else
      match splitOnP p rest with
      | piece :: ps => (c :: piece) :: ps
      | [] => [[c]]

def splitNl (l : List Char) : List (List Char) := splitOnP (fun c => c = '\n') l

/-- `splitAtFirst c l`: the part of `l` before the first occurrence of `c` and
the part after it; `none` if `c` does not occur (JS `indexOf` + `substring`). -/
def splitAtFirst (c : Char) (l : List Char) : Option (List Char × List Char) :=
  match l.dropWhile (fun x => !(x = c)) with
  | _ :: tail => some (l.takeWhile (fun x => !(x = c)), tail)
  | [] => none

/-! ### The tile tokenizer `parseWordToTiles` (src/App.tsx) -/

inductive TileType where
  | consonant | vowel | vowelTeam | digraph | welded | suffix | rControl | pfx | syllable | space
deriving DecidableEq

structure TileData where
  text : List Char
  type : TileType
deriving DecidableEq

/-- WRS-Standard Welded Sounds (Green Cards). -/
def weldedSounds : List (List Char) :=
  [str "all", str "am", str "an", str "ang", str "ing", str "ong", str "ung",
   str "ank", str "ink", str "onk", str "unk",
   str "ild", str "ind", str "old", str "ost", str "olt", str "ive"]

/-- Vowel Teams (Salmon Cards). -/
def vowelTeams : List (List Char) :=
  [str "eigh", str "igh",
   str "ai", str "ay", str "ee", str "ea", str "ey", str "oi", str "oy", str "oa",
   str "oe", str "ow", str "ou", str "oo", str "ue", str "ew", str "au", str "aw",
   str "ie", str "ei", str "ui"]

/-- Digraphs & Trigraphs (Ivory Cards). -/
def digraphs : List (List Char) :=
  [str "sh", str "ch", str "th", str "wh", str "ck", str "ph", str "qu",
   str "wr", str "kn", str "gn", str "mb", str "tch", str "dge"]

def vowels : List Char := ['a', 'e', 'i', 'o', 'u', 'y']

def rControlled : List (List Char) := [str "ar", str "or", str "er", str "ir", str "ur"]

/-- First table entry that is a prefix of `cur` (the source iterates the table
in order and breaks at the first `startsWith` hit). -/
def firstHit (tbl : List (List Char)) (cur : List Char) : Option (List Char) :=
  tbl.find? (fun p => leadsWith p cur)

/-- Rule 0: a leading space becomes a separator tile with empty text. -/
def trySpace : List Char → Option (TileData × List Char)
  | [] => none
  | c :: rest => if c = ' ' then some (⟨[], TileType.space⟩, rest) else none

/-- Rule 1: syllable card `|text|` (regex `^\|([^|]*)\|`). -/
def trySyl : List Char → Option (TileData × List Char)
  | [] => none
  | c :: rest =>
    if c = '|' then
      match splitAtFirst '|' rest with
      | some (pre, tail) => some (⟨pre, TileType.syllable⟩, tail)
      | none => none
    else none

/-- Rule 1.5: affix override `<text>` (indexOf the closing `>`). -/
def tryAffix : List Char → Option (TileData × List Char)
  | [] => none
  | c :: rest =>
    if c = '<' then
      match splitAtFirst '>' rest with
      | some (pre, tail) => some (⟨pre, TileType.suffix⟩, tail)
      | none => none
    else none

/-- Rule 2: suffix `-text` (regex `^-([a-zA-Z0-9]+)`, hyphen kept in the text). -/
def trySuffix : List Char → Option (TileData × List Char)
  | [] => none
  | c :: rest =>
    if c = '-' then
      let run := rest.takeWhile isAlnum
      if run.isEmpty then none
      else some (⟨'-' :: run, TileType.suffix⟩, rest.dropWhile isAlnum)
    else none

/-- Rule 3: prefix `text-` (regex `^([a-zA-Z0-9]+)-`, hyphen kept in the text). -/
def tryPrefixRule (remaining : List Char) : Option (TileData × List Char) :=
  let run := remaining.takeWhile isAlnum
  if run.isEmpty then none
  else
    let after := remaining.dropWhile isAlnum
    if after.head? == some '-' then some (⟨run ++ ['-'], TileType.pfx⟩, after.tail)
    else none

/-- Rule 4: vowel override `[text]`. -/
def tryVowelOv : List Char → Option (TileData × List Char)
  | [] => none
  | c :: rest =>
    if c = '[' then
      match splitAtFirst ']' rest with
      | some (pre, tail) => some (⟨pre, TileType.vowel⟩, tail)
      | none => none
    else none

/-- Rule 5: consonant override `{text}`. -/
def tryConsOv : List Char → Option (TileData × List Char)
  | [] => none
  | c :: rest =>
    if c = '\x7b' then
      match splitAtFirst '\x7d' rest with
      | some (pre, tail) => some (⟨pre, TileType.consonant⟩, tail)
      | none => none
    else none

/-- Rule 6: welded override `/text/` — the closing slash is searched from
index 1 (`indexOf('/', 1)`), i.e. in the tail of the input. -/
def tryWeldOv : List Char → Option (TileData × List Char)
  | [] => none
  | c :: rest =>
    if c = '/' then
      match splitAtFirst '/' rest with
      | some (pre, tail) => some (⟨pre, TileType.welded⟩, tail)
      | none => none
    else none

/-- Auto-parsing cascade: welded sounds, vowel teams, r-controlled, digraphs,
then a single-letter vowel/consonant fallback.  The tables are matched against
the lowercased remainder, while tile texts keep the original casing. -/
def tryAuto : List Char → Option (TileData × List Char)
  | [] => none
  | c :: rest =>
    let remaining := c :: rest
    let current := lowerL remaining
    match firstHit weldedSounds current, firstHit vowelTeams current,
          firstHit rControlled current, firstHit digraphs current with
    | some p, _, _, _ => some (⟨remaining.take p.length, TileType.welded⟩, remaining.drop p.length)
    | none, some p, _, _ => some (⟨remaining.take p.length, TileType.vowelTeam⟩, remaining.drop p.length)
    | none, none, some p, _ => some (⟨remaining.take p.length, TileType.rControl⟩, remaining.drop p.length)
    | none, none, none, some p => some (⟨remaining.take p.length, TileType.digraph⟩, remaining.drop p.length)
    | none, none, none, none =>
      if vowels.contains (toLowerC c) then some (⟨[c], TileType.vowel⟩, rest)
      else some (⟨[c], TileType.consonant⟩, rest)

def orTry : Option (TileData × List Char) → Option (TileData × List Char) → Option (TileData × List Char)
  | some r, _ => some r
  | none, b => b

/-- One iteration of the tokenizer's while-loop: the produced tile and the new
remainder, or `none` when the input is exhausted.  The rules are attempted in
the source order. -/
def tileStep (remaining : List Char) : Option (TileData × List Char) :=
  orTry (trySpace remaining)
    (orTry (trySyl remaining)
      (orTry (tryAffix remaining)
        (orTry (trySuffix remaining)
          (orTry (tryPrefixRule remaining)
            (orTry (tryVowelOv remaining)
              (orTry (tryConsOv remaining)
                (orTry (tryWeldOv remaining)
                  (tryAuto remaining))))))))

/-- The tokenizer loop with explicit fuel. -/
def parseWordToTilesF : Nat → List Char → List TileData
  | 0, _ => []
  | n + 1, remaining =>
    match tileStep remaining with
    | none => []
    | some (t, r') => t :: parseWordToTilesF n r'

/-- `parseWordToTiles` (src/App.tsx): fuel `length` always suffices, as the
termination theorem below proves (each loop iteration consumes at least one
character). -/
def parseWordToTiles (word : List Char) : List TileData :=
  parseWordToTilesF word.length word

/-- The remainder after one loop iteration ( `[]` when the loop has ended). -/
def stepRem (r : List Char) : List Char :=
  match tileStep r with
  | none => []
  | some (_, r') => r'

/-- Iterating the loop remainder `n` times. -/
def stepIter : Nat → List Char → List Char
  | 0, r => r
  | n + 1, r => stepIter n (stepRem r)

/-! Helpers for the claims about the tokenizer. -/

/-- The override delimiter characters of the tile syntax. -/
def delims : List Char := ['|', '<', '>', '[', ']', '\x7b', '\x7d', '/']

def stripDelims (l : List Char) : List Char := l.filter (fun c => !delims.contains c)

/-- Text contributed by one tile, a `space` tile contributing a single space. -/
def tileText (t : TileData) : List Char :=
  if t.type = TileType.space then [' '] else t.text

def concatTexts (ts : List TileData) : List Char :=
  ts.foldr (fun t acc => tileText t ++ acc) []

/-- The alphabet named by claim C1: letters, spaces and the override
delimiter characters. -/
def inClaimAlphabet (c : Char) : Bool := isAsciiLetter c || c = ' ' || delims.contains c

mutual
/-- Well-formed tile syntax: letters and spaces, plus override segments whose
opening delimiter is matched by the corresponding closing delimiter with only
letters and spaces in between. -/
def wfSegs : List Char → Bool
  | [] => true
  | c :: rest =>
    if isAsciiLetter c || c = ' ' then wfSegs rest
    else if c = '|' then wfClose '|' rest
    else if c = '<' then wfClose '>' rest
    else if c = '[' then wfClose ']' rest
    else if c = '\x7b' then wfClose '\x7d' rest
    else if c = '/' then wfClose '/' rest
    else false

/-- Scan a segment interior up to the closing delimiter `cl`. -/
def wfClose : Char → List Char → Bool
  | _, [] => false
  | cl, c :: rest =>
    if c = cl then wfSegs rest
    else if isAsciiLetter c || c = ' ' then wfClose cl rest
    else false
end

/-! ### The lesson text importer `parseLessonText` (src/App.tsx) -/

/-- The `dictation` sub-record of a lesson. -/
structure Dictation where
  sounds : List (List Char)
  realWords : List (List Char)
  wordElements : List (List Char)
  nonsenseWords : List (List Char)
  phrases : List (List Char)
  sentences : List (List Char)
deriving DecidableEq

/-- A word card `{ id, text, type }`; `id` comes from `generateId` (modelled by
the id stream) and `type` is always the literal `"regular"` in this code. -/
structure Card where
  id : List Char
  text : List Char
  type : List Char
deriving DecidableEq

/-- The importer's result record (the fields of `Partial<Lesson>` that
`parseLessonText` touches); `none` models an absent (`undefined`) field. -/
structure LessonRec where
  step : Option (List Char)
  substep : Option (List Char)
  dictation : Option Dictation
  quickDrill : List (List Char)
  hfwList : List (List Char)
  wordCards : List Card
  sentences : List (List Char)
  passage : Option (List Char)
deriving DecidableEq

def emptyDictation : Dictation := ⟨[], [], [], [], [], []⟩

/-- The record as initialized at the top of `parseLessonText`. -/
def initRec : LessonRec :=
  { step := none, substep := none, dictation := some emptyDictation,
    quickDrill := [], hfwList := [], wordCards := [], sentences := [], passage := none }

/-- Result of a call: a record together with the advanced id counter, a thrown
TypeError, or fuel exhaustion (ruled out by the termination theorem). -/
inductive Res where
  | ok : LessonRec → Nat → Res
  | typeError : Res
  | fuelOut : Res
deriving DecidableEq

/-- JS truthiness of a `string | undefined` value. -/
def truthyOpt : Option (List Char) → Bool
  | some s => !s.isEmpty
  | none => false

/-- `parseCSVLine` helper loop: split a line by commas, respecting quotes, with
`""` inside quotes unescaping to `"`. -/
def parseCSVLineGo : Bool → List Char → List Char → List (List Char)
  | _, acc, [] => [acc.reverse]
  | true, acc, '"' :: '"' :: rest2 => parseCSVLineGo true ('"' :: acc) rest2
  | true, acc, '"' :: rest => parseCSVLineGo false acc rest
  | false, acc, '"' :: rest => parseCSVLineGo true acc rest
  | inQ, acc, c :: rest =>
    if c = ',' && !inQ then acc.reverse :: parseCSVLineGo inQ [] rest
    else parseCSVLineGo inQ (c :: acc) rest

/-- Remove one leading quote (the `^"` alternative of `replace(/^"|"$/g, '')`). -/
def stripStartQuote : List Char → List Char
  | '"' :: rest => rest
  | s => s

/-- Remove one trailing quote (the `"$` alternative). -/
def stripEndQuote (s : List Char) : List Char :=
  match s.reverse with
  | '"' :: rev => rev.reverse
  | _ => s

/-- Per-cell cleanup `s.trim().replace(/^"|"$/g, '').trim()`. -/
def stripEdgeQuotes (s : List Char) : List Char := stripEndQuote (stripStartQuote s)

def cleanCell (s : List Char) : List Char := trim (stripEdgeQuotes (trim s))

/-- `parseCSVLine` (src/App.tsx). -/
def parseCSVLine (line : List Char) : List (List Char) :=
  (parseCSVLineGo false [] line).map cleanCell

/-- The CSV detector: first line starts with `,,`, or it contains a comma and
the document has more than 2 lines. -/
def isCSVB (text : List Char) : Bool :=
  let firstLine := trim ((splitNl text).headD [])
  leadsWith (str ",,") firstLine ||
    (firstLine.contains ',' && decide ((splitNl text).length > 2))

/-- Header map: each header, lowercased and trimmed, to its column index; a
later duplicate header overwrites an earlier one (JS object assignment), hence
the reversal before the first-match lookup. -/
def buildIndices (headerRow : List (List Char)) : List (List Char × Nat) :=
  (headerRow.enum.map (fun p => (trim (lowerL p.2), p.1))).reverse

def lookupIdx (indices : List (List Char × Nat)) (key : List Char) : Option Nat :=
  match indices.find? (fun p => p.1 == key) with
  | some p => some p.2
  | none => none

/-- `${targetStep}.${targetSubstep}` when both are truthy, else null. -/
def targetIdOf : Option (List Char) → Option (List Char) → Option (List Char)
  | some a, some b => if !a.isEmpty && !b.isEmpty then some (a ++ '.' :: b) else none
  | _, _ => none

/-- The data-row search loop.  `Except.error ()` models the TypeError thrown
by `colLessonPlan.startsWith(targetIdentifier)` when `colLessonPlan` is
`undefined` (the `lesson plan` column index falls outside the row). -/
def findDataRow (indices : List (List Char × Nat)) (targetId : Option (List Char)) :
    List (List Char) → Except Unit (Option (List (List Char)))
  | [] => Except.ok none
  | l :: rest =>
    let row := parseCSVLine l
    if row.length < 2 then findDataRow indices targetId rest
    else
      let col0 : Option (List Char) := (row.get? 0).map trim
      let colLP : Option (List Char) :=
        match lookupIdx indices (str "lesson plan") with
        | some idx => (row.get? idx).map trim
        | none => some []
      match targetId with
      | some tid =>
        if col0 == some tid then Except.ok (some row)
        else
          match colLP with
          | none => Except.error ()
          | some s => if leadsWith tid s then Except.ok (some row) else findDataRow indices targetId rest
      | none =>
        if truthyOpt col0 || truthyOpt colLP then Except.ok (some row)
        else findDataRow indices targetId rest

/-- `getCol`: first listed header whose column exists and holds a truthy cell. -/
def getColF (indices : List (List Char × Nat)) (dataRow : List (List Char)) :
    List (List Char) → List Char
  | [] => []
  | h :: hs =>
    match lookupIdx indices (lowerL h) with
    | some idx =>
      match dataRow.get? idx with
      | some cell => if !cell.isEmpty then cell else getColF indices dataRow hs
      | none => getColF indices dataRow hs
    | none => getColF indices dataRow hs

/-- `getList`: split a cell on `,` or newline, trim, drop empties. -/
def getListF (indices : List (List Char × Nat)) (dataRow : List (List Char))
    (hs : List (List Char)) : List (List Char) :=
  let raw := getColF indices dataRow hs
  if raw.isEmpty then []
  else ((splitOnP (fun c => c = ',' || c = '\n') raw).map trim).filter (fun s => !s.isEmpty)

/-- Consecutive `generateId` draws from the id stream, in call order. -/
def assignIds (gen : Nat → List Char) (ctr : Nat) : List (List Char) → List Card × Nat
  | [] => ([], ctr)
  | w :: rest =>
    let p := assignIds gen (ctr + 1) rest
    (⟨gen ctr, w, str "regular"⟩ :: p.1, p.2)

/-- `str.split(/:(.+)/)[1] || ''`: everything after the first colon, empty when
there is no colon or nothing follows it. -/
def afterColon (s : List Char) : List Char :=
  match s.dropWhile (fun x => !(x = ':')) with
  | ':' :: rest => rest
  | _ => []

/-- `line.split(/:/)[1]`: the piece between the first and second colon
(`none` when the line has no colon, modelling `undefined`). -/
def colonSeg1 (l : List Char) : Option (List Char) :=
  match l.dropWhile (fun x => !(x = ':')) with
  | ':' :: rest => some (rest.takeWhile (fun x => !(x = ':')))
  | _ => none

/-- `replace(/^\d+[\.)]\s*/, '')`: strip a leading `1.` / `2)` numbering. -/
def removeLeadingNum (s : List Char) : List Char :=
  let d := s.takeWhile isDigitC
  if d.isEmpty then s
  else
    match s.dropWhile isDigitC with
    | c :: rest => if c = '.' || c = ')' then rest.dropWhile isWS else s
    | [] => s

/-- `cleanLine`: trim, strip one leading bullet with its whitespace, remove all
square brackets, turn tabs into spaces. -/
def cleanLine (l : List Char) : List Char :=
  let l1 := trim l
  let l2 :=
    match l1 with
    | c :: d :: rest =>
      if (c = '-' || c = '*' || c = '•' || c = '➢') && isWS d then (d :: rest).dropWhile isWS
      else c :: d :: rest
    | other => other
  (l2.filter (fun c => !(c = '[' || c = ']'))).map (fun c => if c = '\t' then ' ' else c)

/-- `split(/,|;|\t|\s{2,}/)`: the candidates split of `extractList`.  A comma,
semicolon or tab splits on its own; a whitespace run of length at least two
splits as one delimiter (the alternation tries `\t` before `\s{2,}`, so a tab
always splits alone). -/
def splitMultiGo : Bool → List Char → List Char → List (List Char)
  | _, acc, [] => [acc.reverse]
  | skipping, acc, c :: rest =>
    if skipping && isWS c then splitMultiGo true acc rest
    else if c = ',' || c = ';' || c = '\t' then acc.reverse :: splitMultiGo false [] rest
    else if isWS c && (match rest.head? with | some d => isWS d | none => false) then
      acc.reverse :: splitMultiGo true [] rest
    else splitMultiGo false (c :: acc) rest

def splitMulti (l : List Char) : List (List Char) := splitMultiGo false [] l

/-- `extractList` (src/App.tsx): take the part after a colon if present, strip
leading numbering, split into candidates, trim, and drop empties and any
`word count` annotation. -/
def extractList (s0 : List Char) : List (List Char) :=
  let s1 := if s0.contains ':' then afterColon s0 else s0
  let s2 := removeLeadingNum s1
  ((splitMulti s2).map trim).filter
    (fun s => !s.isEmpty && !containsSub (str "word count") (lowerL s))

/-! Step/substep detection: `text.match(/\bStep\s*(\d+)\.(\d+)\b/i)` falling
back to `text.match(/\b(\d+)\.(\d+)\b/)`. -/

def isWordC (c : Char) : Bool := isAsciiLetter c || isDigitC c || c = '_'

/-- Match `(\d+)\.(\d+)\b` anchored at the start of `l` (with backtracking
semantics: the digit runs are maximal, and the trailing boundary fails exactly
when a word character follows the second run). -/
def numDotNumAt (l : List Char) : Option (List Char × List Char) :=
  let d1 := l.takeWhile isDigitC
  if d1.isEmpty then none
  else
    match l.dropWhile isDigitC with
    | '.' :: r2 =>
      let d2 := r2.takeWhile isDigitC
      if d2.isEmpty then none
      else
        match r2.dropWhile isDigitC with
        | [] => some (d1, d2)
        | c :: _ => if isWordC c then none else some (d1, d2)
    | _ => none

/-- Scan for the leftmost match of `\b(\d+)\.(\d+)\b`; the boolean carries
whether a word boundary holds before the current position. -/
def scanNumDotNum : Bool → List Char → Option (List Char × List Char)
  | _, [] => none
  | bnd, c :: rest =>
    match (if bnd then numDotNumAt (c :: rest) else none) with
    | some r => some r
    | none => scanNumDotNum (!isWordC c) rest

/-- Match `Step\s*(\d+)\.(\d+)\b` (case-insensitive) anchored at `l`. -/
def stepAt : List Char → Option (List Char × List Char)
  | s :: t :: e :: p :: rest =>
    if toLowerC s = 's' && toLowerC t = 't' && toLowerC e = 'e' && toLowerC p = 'p' then
      numDotNumAt (rest.dropWhile isWS)
    else none
  | _ => none

/-- Scan for the leftmost match of `\bStep\s*(\d+)\.(\d+)\b/i`. -/
def scanStep : Bool → List Char → Option (List Char × List Char)
  | _, [] => none
  | bnd, c :: rest =>
    match (if bnd then stepAt (c :: rest) else none) with
    | some r => some r
    | none => scanStep (!isWordC c) rest

def stepMatchResult (text : List Char) : Option (List Char × List Char) :=
  match scanStep true text with
  | some r => some r
  | none => scanNumDotNum true text

/-! The freeform line loop. -/

inductive Sect where
  | none | quickDrill | hfw | wordCards | sentences | dictation | passage
deriving DecidableEq

inductive DictMode where
  | none | sounds | real | elements | nonsense | phrases | sentences
deriving DecidableEq

structure FFState where
  sect : Sect
  dmode : DictMode
  ext : LessonRec
  ctr : Nat
deriving DecidableEq

/-- Numeric dictation sub-header `^1[\.)]` etc. on the raw line. -/
def numHead (d : Char) : List Char → Bool
  | a :: b :: _ => a = d && (b = '.' || b = ')')
  | _ => false

/-- The explicit-header detection of the dictation sub-mode. -/
def detectExplicit (dm : DictMode) (lower : List Char) : DictMode :=
  if leadsWith (str "sound") lower || containsSub (str "sounds:") lower
      || containsSub (str "sounds") lower then DictMode.sounds
  else if leadsWith (str "real") lower || containsSub (str "real words:") lower
      || containsSub (str "words") lower then DictMode.real
  else if leadsWith (str "element") lower || containsSub (str "word elements:") lower
      || containsSub (str "welded") lower then DictMode.elements
  else if leadsWith (str "nonsense") lower || containsSub (str "nonsense words:") lower then
    DictMode.nonsense
  else if leadsWith (str "phrase") lower || containsSub (str "phrases:") lower then
    DictMode.phrases
  else if leadsWith (str "sentence") lower || containsSub (str "sentences:") lower then
    DictMode.sentences
  else dm

/-- The numeric-header fallback (`^1[\.)]` … `^6[\.)]` on the raw line), tried
exactly when the explicit detection left the sub-mode unchanged. -/
def detectNumeric (dm : DictMode) (rawLine : List Char) (detected : DictMode) : DictMode :=
  if detected = dm then
    if numHead '1' rawLine then DictMode.sounds
    else if numHead '2' rawLine then DictMode.real
    else if numHead '3' rawLine then DictMode.elements
    else if numHead '4' rawLine then DictMode.nonsense
    else if numHead '5' rawLine then DictMode.phrases
    else if numHead '6' rawLine then DictMode.sentences
    else detected
  else detected

/-- Content of a dictation line: after the colon, or with leading numbering
stripped. -/
def dictContent (line : List Char) : List Char :=
  if line.contains ':' then afterColon line else removeLeadingNum line

/-- The dictation-section branch of the freeform loop body. -/
def dictLine (st : FFState) (rawLine line lower : List Char) : FFState :=
  match st.ext.dictation with
  | none => st
  | some d =>
    let detected2 := detectNumeric st.dmode rawLine (detectExplicit st.dmode lower)
    let c2 := dictContent line
    let st2 := { st with dmode := detected2 }
    if !c2.isEmpty && !(trim c2).isEmpty then
      let items := extractList c2
      match detected2 with
      | DictMode.sounds =>
        { st2 with ext := { st2.ext with dictation := some { d with sounds := d.sounds ++ items } } }
      | DictMode.real =>
        { st2 with ext := { st2.ext with dictation := some { d with realWords := d.realWords ++ items } } }
      | DictMode.nonsense =>
        { st2 with ext := { st2.ext with dictation := some { d with nonsenseWords := d.nonsenseWords ++ items } } }
      | DictMode.elements =>
        { st2 with ext := { st2.ext with dictation := some { d with wordElements := d.wordElements ++ items } } }
      | DictMode.phrases =>
        { st2 with ext := { st2.ext with dictation := some { d with phrases := d.phrases ++ items } } }
      | DictMode.sentences =>
        let cleanSentence := removeLeadingNum (trim c2)
        if decide (cleanSentence.length > 5) && !containsSub (str "sentences") (lowerL cleanSentence) then
          { st2 with ext := { st2.ext with dictation := some { d with sentences := d.sentences ++ [cleanSentence] } } }
        else st2
      | DictMode.none => st2
    else st2

/-- One iteration of the freeform loop over the (trimmed, non-empty) lines. -/
def processLine (gen : Nat → List Char) (st : FFState) (rawLine : List Char) : FFState :=
  let line := cleanLine rawLine
  let lower := lowerL line
  if containsSub (str "quick drill") lower || containsSub (str "visual drill") lower
      || containsSub (str "part 1") lower then
    let st1 := { st with sect := Sect.quickDrill }
    match colonSeg1 line with
    | some content =>
      if !content.isEmpty && !(trim content).isEmpty then
        { st1 with ext := { st1.ext with quickDrill := st1.ext.quickDrill ++ extractList content } }
      else st1
    | none => st1
  else if containsSub (str "word cards") lower || containsSub (str "word list") lower
      || containsSub (str "part 3") lower || containsSub (str "words for reading") lower then
    let st1 := { st with sect := Sect.wordCards }
    match colonSeg1 line with
    | some content =>
      if !content.isEmpty && !(trim content).isEmpty then
        let ws := extractList content
        let pr := assignIds gen st1.ctr ws
        { st1 with ext := { st1.ext with wordCards := st1.ext.wordCards ++ pr.1 }, ctr := pr.2 }
      else st1
    | none => st1
  else if containsSub (str "sight words") lower || containsSub (str "hfw") lower
      || containsSub (str "high frequency") lower then
    let st1 := { st with sect := Sect.hfw }
    match colonSeg1 line with
    | some content =>
      if !content.isEmpty && !(trim content).isEmpty then
        { st1 with ext := { st1.ext with hfwList := st1.ext.hfwList ++ extractList content } }
      else st1
    | none => st1
  else if containsSub (str "sentences for reading") lower || containsSub (str "part 5") lower
      || containsSub (str "reading sentences") lower then
    { st with sect := Sect.sentences }
  else if containsSub (str "dictation") lower || containsSub (str "part 8") lower then
    { st with sect := Sect.dictation, dmode := DictMode.none }
  else if containsSub (str "passage") lower || containsSub (str "story") lower
      || containsSub (str "part 9") lower then
    { st with sect := Sect.passage }
  else
    match st.sect with
    | Sect.quickDrill =>
      if !line.contains ':' && !containsSub (str "part") lower then
        { st with ext := { st.ext with quickDrill := st.ext.quickDrill ++ extractList line } }
      else st
    | Sect.hfw =>
      if !line.contains ':' then
        { st with ext := { st.ext with hfwList := st.ext.hfwList ++ extractList line } }
      else st
    | Sect.wordCards =>
      if !line.contains ':' then
        let ws := extractList line
        let pr := assignIds gen st.ctr ws
        { st with ext := { st.ext with wordCards := st.ext.wordCards ++ pr.1 }, ctr := pr.2 }
      else st
    | Sect.sentences =>
      if decide (line.length > 5) && line.contains ' ' && !containsSub (str "part 6") lower then
        { st with ext := { st.ext with sentences := st.ext.sentences ++ [line] } }
      else st
    | Sect.passage =>
      { st with ext := { st.ext with passage := some ((st.ext.passage.getD []) ++ line ++ str "\n\n") } }
    | Sect.dictation => dictLine st rawLine line lower
    | Sect.none => st

/-- The freeform-text path of `parseLessonText` (also reached when the CSV
detector fires but no data row is found). -/
def freeformParse (gen : Nat → List Char) (text : List Char) (ctr : Nat) : LessonRec × Nat :=
  let ext1 :=
    match stepMatchResult text with
    | some pr => { initRec with step := some pr.1, substep := some pr.2 }
    | none => initRec
  let rawLines := ((splitNl text).map trim).filter (fun l => !l.isEmpty)
  let final := rawLines.foldl (processLine gen) ⟨Sect.none, DictMode.none, ext1, ctr⟩
  (final.ext, final.ctr)

/-! The CSV path. -/

/-- CSV-row extraction, everything except the recursive dictation reparse:
returns the record so far, the advanced counter, and the dictation cell. -/
def csvExtract (gen : Nat → List Char) (indices : List (List Char × Nat))
    (dataRow : List (List Char)) (ctr : Nat) : LessonRec × Nat × List Char :=
  let hfw := getListF indices dataRow [str "new sight words", str "sight words"]
  let qd := getListF indices dataRow [str "new sound cards", str "pa drill", str "spelling sounds"]
  let vocab1 := getListF indices dataRow [str "new vocab words"]
  let vocab2 := getListF indices dataRow [str "vocab from sentences"]
  let vocab3 := getListF indices dataRow [str "vocab from connected text"]
  let pr := assignIds gen ctr (vocab1 ++ vocab2 ++ vocab3)
  let rawSentences := getColF indices dataRow [str "sentences", str "reading sentences"]
  let sents :=
    if rawSentences.isEmpty then []
    else ((splitNl rawSentences).map trim).filter (fun s => decide (s.length > 5))
  let pass := getColF indices dataRow [str "connected text", str "reader"]
  let dict := getColF indices dataRow [str "dictation"]
  ({ initRec with
      hfwList := hfw, quickDrill := qd, wordCards := pr.1,
      sentences := sents, passage := some pass }, pr.2, dict)

/-- `if (!extracted.step && targetStep) ...` and likewise for the substep. -/
def finalizeStep (ext : LessonRec) (tStep tSub : Option (List Char)) : LessonRec :=
  let e1 := if !truthyOpt ext.step && truthyOpt tStep then { ext with step := tStep } else ext
  if !truthyOpt e1.substep && truthyOpt tSub then { e1 with substep := tSub } else e1

/-- `parseLessonText` (src/App.tsx) with explicit fuel for its one recursion
site, the reparse of the dictation cell (which passes no targets).  Fuel
`length text + 1` always suffices (termination theorem below). -/
def parseLessonTextF (gen : Nat → List Char) :
    Nat → List Char → Option (List Char) → Option (List Char) → Nat → Res
  | 0, _, _, _, _ => Res.fuelOut
  | fuel + 1, text, tStep, tSub, ctr =>
    if isCSVB text then
      let lines := splitNl text
      let indices := buildIndices (parseCSVLine (trim (lines.headD [])))
      match findDataRow indices (targetIdOf tStep tSub) (lines.drop 1) with
      | Except.error _ => Res.typeError
      | Except.ok Option.none =>
        let pr := freeformParse gen text ctr
        Res.ok pr.1 pr.2
      | Except.ok (Option.some dataRow) =>
        let tr := csvExtract gen indices dataRow ctr
        if !(tr.2).2.isEmpty then
          match parseLessonTextF gen fuel ((tr.2).2) Option.none Option.none ((tr.2).1) with
          | Res.ok p ctr3 =>
            match p.dictation with
            | some d => Res.ok (finalizeStep { tr.1 with dictation := some d } tStep tSub) ctr3
            | none => Res.ok (finalizeStep tr.1 tStep tSub) ctr3
          | e => e
        else Res.ok (finalizeStep tr.1 tStep tSub) ((tr.2).1)
    else
      let pr := freeformParse gen text ctr
      Res.ok pr.1 pr.2

/-- `parseLessonText` at the always-sufficient fuel, starting the id counter
at 0. -/
def parseLessonText (gen : Nat → List Char) (text : List Char)
    (tStep tSub : Option (List Char)) : Res :=
  parseLessonTextF gen (text.length + 1) text tStep tSub 0

/-! Helpers for the claims about the importer. -/

def gen0 : Nat → List Char := fun _ => []

def hfwOf : Res → List (List Char)
  | Res.ok p _ => p.hfwList
  | _ => []

def quickDrillOf : Res → List (List Char)
  | Res.ok p _ => p.quickDrill
  | _ => []

def sentencesOf : Res → List (List Char)
  | Res.ok p _ => p.sentences
  | _ => []

/-- Erase the generated id of a card. -/
def eraseCard (c : Card) : Card := { c with id := [] }

/-- Erase all generated ids from a record. -/
def eraseIds (p : LessonRec) : LessonRec := { p with wordCards := p.wordCards.map eraseCard }

/-- Erase everything that models PRNG state: card ids and the id counter. -/
def eraseRes : Res → Res
  | Res.ok p _ => Res.ok (eraseIds p) 0
  | e => e

/-- Erase the PRNG-state components of a freeform loop state. -/
def eraseFF (st : FFState) : FFState :=
  { st with ext := eraseIds st.ext, ctr := 0 }

/-- A line matching one of the freeform section-header keyword tests
(the lowercased cleaned line is the argument). -/
def isHeaderLine (lower : List Char) : Bool :=
  containsSub (str "quick drill") lower || containsSub (str "visual drill") lower
    || containsSub (str "part 1") lower
    || containsSub (str "word cards") lower || containsSub (str "word list") lower
    || containsSub (str "part 3") lower || containsSub (str "words for reading") lower
    || containsSub (str "sight words") lower || containsSub (str "hfw") lower
    || containsSub (str "high frequency") lower
    || containsSub (str "sentences for reading") lower || containsSub (str "part 5") lower
    || containsSub (str "reading sentences") lower
    || containsSub (str "dictation") lower || containsSub (str "part 8") lower
    || containsSub (str "passage") lower || containsSub (str "story") lower
    || containsSub (str "part 9") lower

/-- The CSV detector as worded by claim C5 ("first non-empty line starts with
`,,`"), for comparison with the source's `isCSVB` (which tests the first line,
empty or not). -/
def isCSVClaimed (text : List Char) : Bool :=
  let lines := splitNl text
  let firstNonEmpty := trim ((lines.filter (fun l => !l.isEmpty)).headD [])
  leadsWith (str ",,") firstNonEmpty ||
    ((trim (lines.headD [])).contains ',' && decide (lines.length > 2))

/-! ### Lemmas about the tokenizer step -/

theorem findPred {α : Type} (p : α → Bool) :
    ∀ (l : List α) (a : α), l.find? p = some a → p a = true := by
  intro l
  induction l with
  | nil => intro a h; cases h
  | cons x xs ih =>
    intro a h
    cases hpx : p x with
    | true =>
      simp [List.find?, hpx] at h
      rw [← h]
      exact hpx
    | false =>
      simp [List.find?, hpx] at h
      exact ih a h

theorem findMem {α : Type} (p : α → Bool) :
    ∀ (l : List α) (a : α), l.find? p = some a → a ∈ l := by
  intro l
  induction l with
  | nil => intro a h; cases h
  | cons x xs ih =>
    intro a h
    cases hpx : p x with
    | true =>
      simp [List.find?, hpx] at h
      simp [h]
    | false =>
      simp [List.find?, hpx] at h
      exact List.mem_cons_of_mem x (ih a h)

theorem orTry_some {a b : Option (TileData × List Char)} {x : TileData × List Char}
    (h : orTry a b = some x) : a = some x ∨ (a = none ∧ b = some x) := by
  cases a <;> simp [orTry] at h ⊢ <;> exact h

theorem splitAtFirst_length {c : Char} {l pre tail : List Char}
    (h : splitAtFirst c l = some (pre, tail)) : tail.length < l.length := by
  unfold splitAtFirst at h
  cases hd : l.dropWhile (fun x => !(x = c)) with
  | nil => rw [hd] at h; cases h
  | cons a tl =>
    rw [hd] at h
    simp at h
    have h2 : (a :: tl).length ≤ l.length := by
      rw [← hd]; exact (List.dropWhile_sublist _).length_le
    rw [← h.2]
    simp at h2
    omega

theorem tileStep_nil : tileStep [] = none := rfl

theorem trySpace_length {r : List Char} {t : TileData} {r' : List Char}
    (h : trySpace r = some (t, r')) : r'.length < r.length := by
  cases r with
  | nil => cases h
  | cons c rest =>
    simp only [trySpace] at h
    split at h
    · simp at h
      rw [← h.2]
      simp
    · cases h

theorem trySyl_length {r : List Char} {t : TileData} {r' : List Char}
    (h : trySyl r = some (t, r')) : r'.length < r.length := by
  cases r with
  | nil => cases h
  | cons c rest =>
    simp only [trySyl] at h
    split at h
    · cases hsp : splitAtFirst '|' rest with
      | none => rw [hsp] at h; cases h
      | some pr =>
        obtain ⟨pre, tail⟩ := pr
        rw [hsp] at h
        simp at h
        have := splitAtFirst_length hsp
        rw [← h.2]
        simp
        omega
    · cases h

theorem tryAffix_length {r : List Char} {t : TileData} {r' : List Char}
    (h : tryAffix r = some (t, r')) : r'.length < r.length := by
  cases r with
  | nil => cases h
  | cons c rest =>
    simp only [tryAffix] at h
    split at h
    · cases hsp : splitAtFirst '>' rest with
      | none => rw [hsp] at h; cases h
      | some pr =>
        obtain ⟨pre, tail⟩ := pr
        rw [hsp] at h
        simp at h
        have := splitAtFirst_length hsp
        rw [← h.2]
        simp
        omega
    · cases h

theorem trySuffix_length {r : List Char} {t : TileData} {r' : List Char}
    (h : trySuffix r = some (t, r')) : r'.length < r.length := by
  cases r with
  | nil => cases h
  | cons c rest =>
    simp only [trySuffix] at h
    split at h
    · split at h
      · cases h
      · simp at h
        have : (rest.dropWhile isAlnum).length ≤ rest.length :=
          (List.dropWhile_sublist _).length_le
        rw [← h.2]
        simp
        omega
    · cases h

theorem tryPrefixRule_length {r : List Char} {t : TileData} {r' : List Char}
    (h : tryPrefixRule r = some (t, r')) : r'.length < r.length := by
  simp only [tryPrefixRule] at h
  split at h
  · cases h
  · split at h
    · simp at h
      have hne : ¬r.takeWhile isAlnum = [] := by
        intro hx
        simp [hx, List.isEmpty] at *
      have hlen : (r.dropWhile isAlnum).length ≤ r.length :=
        (List.dropWhile_sublist _).length_le
      have hrpos : 0 < r.length := by
        cases r with
        | nil => simp [List.takeWhile] at hne
        | cons a b => simp
      have htail : ((r.dropWhile isAlnum).tail).length ≤ (r.dropWhile isAlnum).length - 1 := by
        cases hdw : r.dropWhile isAlnum with
        | nil => simp
        | cons a b => simp
      have hcase : ¬(r.takeWhile isAlnum).length = 0 := by
        intro hx
        exact hne (List.eq_nil_of_length_eq_zero hx)
      have hsum : (r.takeWhile isAlnum).length + (r.dropWhile isAlnum).length = r.length := by
        rw [← List.length_append, List.takeWhile_append_dropWhile]
      rw [← h.2]
      omega
    · cases h

theorem tryVowelOv_length {r : List Char} {t : TileData} {r' : List Char}
    (h : tryVowelOv r = some (t, r')) : r'.length < r.length := by
  cases r with
  | nil => cases h
  | cons c rest =>
    simp only [tryVowelOv] at h
    split at h
    · cases hsp : splitAtFirst ']' rest with
      | none => rw [hsp] at h; cases h
      | some pr =>
        obtain ⟨pre, tail⟩ := pr
        rw [hsp] at h
        simp at h
        have := splitAtFirst_length hsp
        rw [← h.2]
        simp
        omega
    · cases h

theorem tryConsOv_length {r : List Char} {t : TileData} {r' : List Char}
    (h : tryConsOv r = some (t, r')) : r'.length < r.length := by
  cases r with
  | nil => cases h
  | cons c rest =>
    simp only [tryConsOv] at h
    split at h
    · cases hsp : splitAtFirst '\x7d' rest with
      | none => rw [hsp] at h; cases h
      | some pr =>
        obtain ⟨pre, tail⟩ := pr
        rw [hsp] at h
        simp at h
        have := splitAtFirst_length hsp
        rw [← h.2]
        simp
        omega
    · cases h

theorem tryWeldOv_length {r : List Char} {t : TileData} {r' : List Char}
    (h : tryWeldOv r = some (t, r')) : r'.length < r.length := by
  cases r with
  | nil => cases h
  | cons c rest =>
    simp only [tryWeldOv] at h
    split at h
    · cases hsp : splitAtFirst '/' rest with
      | none => rw [hsp] at h; cases h
      | some pr =>
        obtain ⟨pre, tail⟩ := pr
        rw [hsp] at h
        simp at h
        have := splitAtFirst_length hsp
        rw [← h.2]
        simp
        omega
    · cases h

theorem firstHit_mem {tbl : List (List Char)} {cur p : List Char}
    (h : firstHit tbl cur = some p) : p ∈ tbl :=
  findMem _ _ _ h

theorem firstHit_leads {tbl : List (List Char)} {cur p : List Char}
    (h : firstHit tbl cur = some p) : leadsWith p cur = true := by
  have h2 : (fun q => leadsWith q cur) p = true := findPred (fun q => leadsWith q cur) tbl p h
  simpa using h2

theorem weldedSounds_facts : weldedSounds.all (fun p => !p.isEmpty && p.all isLowerLetter) = true := by decide

theorem vowelTeams_facts : vowelTeams.all (fun p => !p.isEmpty && p.all isLowerLetter) = true := by decide

theorem rControlled_facts : rControlled.all (fun p => !p.isEmpty && p.all isLowerLetter) = true := by decide

theorem digraphs_facts : digraphs.all (fun p => !p.isEmpty && p.all isLowerLetter) = true := by decide

theorem firstHit_pos {tbl : List (List Char)} {cur p : List Char}
    (htbl : tbl.all (fun q => !q.isEmpty && q.all isLowerLetter) = true)
    (hp : firstHit tbl cur = some p) : 0 < p.length := by
  have hmem := firstHit_mem hp
  have := List.all_eq_true.mp htbl _ hmem
  simp at this
  cases p with
  | nil => simp [List.isEmpty] at this
  | cons a b => simp

theorem tryAuto_length {r : List Char} {t : TileData} {r' : List Char}
    (h : tryAuto r = some (t, r')) : r'.length < r.length := by
  cases r with
  | nil => cases h
  | cons c rest =>
    simp only [tryAuto] at h
    cases h1 : firstHit weldedSounds (lowerL (c :: rest)) with
    | some p =>
      rw [h1] at h
      simp at h
      have := firstHit_pos weldedSounds_facts h1
      rw [← h.2]
      simp
      omega
    | none =>
    rw [h1] at h
    cases h2 : firstHit vowelTeams (lowerL (c :: rest)) with
    | some p =>
      rw [h2] at h
      simp at h
      have := firstHit_pos vowelTeams_facts h2
      rw [← h.2]
      simp
      omega
    | none =>
    rw [h2] at h
    cases h3 : firstHit rControlled (lowerL (c :: rest)) with
    | some p =>
      rw [h3] at h
      simp at h
      have := firstHit_pos rControlled_facts h3
      rw [← h.2]
      simp
      omega
    | none =>
    rw [h3] at h
    cases h4 : firstHit digraphs (lowerL (c :: rest)) with
    | some p =>
      rw [h4] at h
      simp at h
      have := firstHit_pos digraphs_facts h4
      rw [← h.2]
      simp
      omega
    | none =>
      rw [h4] at h
      simp at h
      split at h
      · simp at h; rw [← h.2]; simp
      · simp at h; rw [← h.2]; simp

theorem tileStep_length {r : List Char} {t : TileData} {r' : List Char}
    (h : tileStep r = some (t, r')) : r'.length < r.length := by
  unfold tileStep at h
  rcases orTry_some h with h | ⟨_, h⟩
  · exact trySpace_length h
  rcases orTry_some h with h | ⟨_, h⟩
  · exact trySyl_length h
  rcases orTry_some h with h | ⟨_, h⟩
  · exact tryAffix_length h
  rcases orTry_some h with h | ⟨_, h⟩
  · exact trySuffix_length h
  rcases orTry_some h with h | ⟨_, h⟩
  · exact tryPrefixRule_length h
  rcases orTry_some h with h | ⟨_, h⟩
  · exact tryVowelOv_length h
  rcases orTry_some h with h | ⟨_, h⟩
  · exact tryConsOv_length h
  rcases orTry_some h with h | ⟨_, h⟩
  · exact tryWeldOv_length h
  exact tryAuto_length h

theorem parseWordToTilesF_congr :
    ∀ (n m : Nat) (r : List Char), r.length ≤ n → r.length ≤ m →
      parseWordToTilesF n r = parseWordToTilesF m r := by
  intro n
  induction n with
  | zero =>
    intro m r h1 _
    have : r = [] := by
      cases r with
      | nil => rfl
      | cons a b => simp at h1
    subst this
    cases m with
    | zero => rfl
    | succ m => simp [parseWordToTilesF, tileStep_nil]
  | succ n ih =>
    intro m r h1 h2
    cases r with
    | nil =>
      cases m with
      | zero => simp [parseWordToTilesF, tileStep_nil]
      | succ m => simp [parseWordToTilesF, tileStep_nil]
    | cons c rest =>
      cases m with
      | zero => simp at h2
      | succ m =>
        simp only [parseWordToTilesF]
        cases ht : tileStep (c :: rest) with
        | none => rfl
        | some pr =>
          obtain ⟨t, r'⟩ := pr
          have hlt := tileStep_length ht
          simp at h1 h2 hlt
          have e := ih m r' (by omega) (by omega)
          show t :: parseWordToTilesF n r' = t :: parseWordToTilesF m r'
          rw [e]

theorem parseWordToTiles_step {r : List Char} {t : TileData} {r' : List Char}
    (h : tileStep r = some (t, r')) :
    parseWordToTiles r = t :: parseWordToTiles r' := by
  cases r with
  | nil => rw [tileStep_nil] at h; cases h
  | cons c rest =>
    have hlt := tileStep_length h
    unfold parseWordToTiles
    have : (c :: rest).length = rest.length + 1 := by simp
    rw [this]
    simp only [parseWordToTilesF]
    rw [h]
    have e := parseWordToTilesF_congr rest.length r'.length r' (by simp at hlt; omega) le_rfl
    show t :: parseWordToTilesF rest.length r' = t :: parseWordToTiles r'
    rw [e]
    rfl

theorem parseWordToTiles_done {r : List Char} (h : tileStep r = none) :
    parseWordToTiles r = [] := by
  cases r with
  | nil => rfl
  | cons c rest =>
    unfold parseWordToTiles
    have : (c :: rest).length = rest.length + 1 := by simp
    rw [this]
    simp only [parseWordToTilesF]
    rw [h]

theorem stepIter_empties : ∀ (n : Nat) (r : List Char), r.length ≤ n → stepIter n r = [] := by
  intro n
  induction n with
  | zero =>
    intro r h
    cases r with
    | nil => rfl
    | cons a b => simp at h
  | succ n ih =>
    intro r h
    show stepIter n (stepRem r) = []
    apply ih
    unfold stepRem
    cases ht : tileStep r with
    | none => simp
    | some pr =>
      obtain ⟨t, r'⟩ := pr
      have := tileStep_length ht
      show r'.length ≤ n
      omega

/-! ### Claims C2, C3, C7 about the tokenizer -/

/-- Claim C2 (confirmed): `parseWordToTiles "{a}"` is exactly one consonant
tile with text `"a"`, `parseWordToTiles "[a]"` one vowel tile with text `"a"`,
and `parseWordToTiles "/an/"` one welded tile with text `"an"`: the explicit
override syntax pre-empts the auto-detection cascade, in particular `"{a}"`
does not produce a vowel tile although `a` is a vowel. -/
theorem c2_override_precedence :
    parseWordToTiles (str "\x7ba\x7d") = [⟨str "a", TileType.consonant⟩] ∧
    parseWordToTiles (str "[a]") = [⟨str "a", TileType.vowel⟩] ∧
    parseWordToTiles (str "/an/") = [⟨str "an", TileType.welded⟩] := by
  refine ⟨by decide, by decide, by decide⟩

/-- Claim C3 (confirmed): the tokenizer is total.  The empty string yields the
empty tile sequence; iterating the loop body `length w` times always empties
the remainder (the loop terminates and consumes the entire input — and, the
model being a total function, no exception is possible); and any fuel of at
least `length w` computes the same tile sequence. -/
theorem c3_tokenizer_total :
    parseWordToTiles [] = [] ∧
    (∀ w : List Char, stepIter w.length w = []) ∧
    (∀ (w : List Char) (n : Nat), w.length ≤ n → parseWordToTilesF n w = parseWordToTiles w) :=
  ⟨rfl, fun w => stepIter_empties w.length w le_rfl,
   fun w n h => parseWordToTilesF_congr n w.length w h le_rfl⟩

/-- Witness for C3: the fuel-irrelevance part applied at a concrete input. -/
theorem c3_tokenizer_total_witness :
    (str "cat").length ≤ 7 ∧ parseWordToTilesF 7 (str "cat") = parseWordToTiles (str "cat") :=
  ⟨by decide, c3_tokenizer_total.2.2 (str "cat") 7 (by decide)⟩

theorem takeWhile_notmem {cl : Char} {w : List Char} (rest : List Char)
    (h : ∀ x ∈ w, x ≠ cl) :
    (w ++ cl :: rest).takeWhile (fun x => !(x = cl)) = w := by
  induction w with
  | nil => simp [List.takeWhile]
  | cons a w ih =>
    have ha : ¬a = cl := h a (by simp)
    simp only [List.cons_append, List.takeWhile_cons]
    simp [ha]
    exact ih (fun x hx => h x (by simp [hx]))

theorem dropWhile_notmem {cl : Char} {w : List Char} (rest : List Char)
    (h : ∀ x ∈ w, x ≠ cl) :
    (w ++ cl :: rest).dropWhile (fun x => !(x = cl)) = cl :: rest := by
  induction w with
  | nil => simp [List.dropWhile]
  | cons a w ih =>
    have ha : ¬a = cl := h a (by simp)
    simp only [List.cons_append, List.dropWhile_cons]
    simp [ha]
    exact ih (fun x hx => h x (by simp [hx]))

theorem splitAtFirst_append {cl : Char} {w : List Char} (rest : List Char)
    (h : ∀ x ∈ w, x ≠ cl) :
    splitAtFirst cl (w ++ cl :: rest) = some (w, rest) := by
  unfold splitAtFirst
  rw [dropWhile_notmem rest h, takeWhile_notmem rest h]

/-- Counterexample to claim C7: the input `"//"` produces exactly one welded
tile whose text is EMPTY — the claim asserts every welded tile from the
`/.../` override has at least one interior character, but searching for the
closing slash from index 1 still allows the closer to sit at index 1, giving
an empty interior. -/
theorem c7_counterexample :
    parseWordToTiles (str "//") = [⟨[], TileType.welded⟩] := by decide

/-- Claim C7 as amended: the welded-override search from index 1 only
guarantees that the opening slash is never its own closer; the produced
welded tile's text is the (possibly empty) run of characters strictly between
the opening slash and the next slash, and the parse continues after the
closer. -/
theorem c7_amended (w rest : List Char) (h : ∀ x ∈ w, x ≠ '/') :
    parseWordToTiles ('/' :: (w ++ '/' :: rest)) =
      ⟨w, TileType.welded⟩ :: parseWordToTiles rest := by
  have hstep : tileStep ('/' :: (w ++ '/' :: rest)) = some (⟨w, TileType.welded⟩, rest) := by
    unfold tileStep
    have h1 : trySpace ('/' :: (w ++ '/' :: rest)) = none := by simp +decide [trySpace]
    have h2 : trySyl ('/' :: (w ++ '/' :: rest)) = none := by simp +decide [trySyl]
    have h3 : tryAffix ('/' :: (w ++ '/' :: rest)) = none := by simp +decide [tryAffix]
    have h4 : trySuffix ('/' :: (w ++ '/' :: rest)) = none := by simp +decide [trySuffix]
    have h5 : tryPrefixRule ('/' :: (w ++ '/' :: rest)) = none := by
      simp +decide [tryPrefixRule, List.takeWhile_cons]
    have h6 : tryVowelOv ('/' :: (w ++ '/' :: rest)) = none := by simp +decide [tryVowelOv]
    have h7 : tryConsOv ('/' :: (w ++ '/' :: rest)) = none := by simp +decide [tryConsOv]
    have h8 : tryWeldOv ('/' :: (w ++ '/' :: rest)) = some (⟨w, TileType.welded⟩, rest) := by
      simp +decide [tryWeldOv, splitAtFirst_append rest h]
    rw [h1, h2, h3, h4, h5, h6, h7, h8]
    rfl
  rw [parseWordToTiles_step hstep]

/-- Witness for the amended C7 at `w = "an"`, `rest = []`. -/
theorem c7_amended_witness :
    (∀ x ∈ str "an", x ≠ '/') ∧
    parseWordToTiles ('/' :: (str "an" ++ '/' :: [])) =
      ⟨str "an", TileType.welded⟩ :: parseWordToTiles [] :=
  ⟨by decide, c7_amended (str "an") [] (by decide)⟩

/-! ### Claim C1: round-trip lemmas -/

theorem ok_not_delim {c : Char} (h : (isAsciiLetter c || c = ' ') = true) :
    delims.contains c = false := by
  cases hc : delims.contains c with
  | false => rfl
  | true =>
    exfalso
    have hmem : c ∈ delims := by simpa using hc
    simp [delims] at hmem
    simp [isAsciiLetter] at h
    rcases hmem with rfl | rfl | rfl | rfl | rfl | rfl | rfl | rfl <;> revert h <;> decide

theorem alphaOK_of_ok {c : Char} (h : (isAsciiLetter c || c = ' ') = true) :
    inClaimAlphabet c = true := by
  simp [inClaimAlphabet]
  simp at h
  rcases h with h | h
  · exact Or.inl (Or.inl h)
  · exact Or.inl (Or.inr h)

theorem wfSegs_cons_ok {c : Char} (rest : List Char)
    (h : (isAsciiLetter c || c = ' ') = true) :
    wfSegs (c :: rest) = wfSegs rest := by
  rw [wfSegs]
  rw [if_pos h]

theorem wfClose_decomp {cl : Char} :
    ∀ {rest : List Char}, wfClose cl rest = true →
      ∃ pre rest2, rest = pre ++ cl :: rest2 ∧
        (∀ x ∈ pre, (isAsciiLetter x || x = ' ') = true ∧ x ≠ cl) ∧
        wfSegs rest2 = true := by
  intro rest h
  induction rest with
  | nil => cases h
  | cons c rest ih =>
    rw [wfClose] at h
    by_cases hc : c = cl
    · rw [if_pos hc] at h
      exact ⟨[], rest, by simp [hc], by simp, h⟩
    · rw [if_neg hc] at h
      by_cases h2 : (isAsciiLetter c || c = ' ') = true
      · rw [if_pos h2] at h
        obtain ⟨pre, rest2, heq, hmem, hwf⟩ := ih h
        refine ⟨c :: pre, rest2, by simp [heq], ?_, hwf⟩
        intro x hx
        rcases List.mem_cons.mp hx with rfl | hx
        · exact ⟨h2, hc⟩
        · exact hmem x hx
      · rw [if_neg h2] at h
        cases h

theorem wf_alpha : ∀ n : Nat,
    (∀ s : List Char, s.length ≤ n → wfSegs s = true → ∀ x ∈ s, inClaimAlphabet x = true) ∧
    (∀ (cl : Char) (s : List Char), inClaimAlphabet cl = true → s.length ≤ n → wfClose cl s = true →
      ∀ x ∈ s, inClaimAlphabet x = true) := by
  intro n
  induction n with
  | zero =>
    constructor
    · intro s hlen _ x hx
      cases s with
      | nil => cases hx
      | cons a b => simp at hlen
    · intro cl s _ hlen _ x hx
      cases s with
      | nil => cases hx
      | cons a b => simp at hlen
  | succ n ih =>
    obtain ⟨ih1, ih2⟩ := ih
    constructor
    · intro s hlen hwf x hx
      cases s with
      | nil => cases hx
      | cons c rest =>
        simp at hlen
        rw [wfSegs] at hwf
        by_cases hok : (isAsciiLetter c || c = ' ') = true
        · rw [if_pos hok] at hwf
          rcases List.mem_cons.mp hx with rfl | hx
          · exact alphaOK_of_ok hok
          · exact ih1 rest hlen hwf x hx
        · rw [if_neg hok] at hwf
          by_cases h1 : c = '|'
          · rw [if_pos h1] at hwf
            rcases List.mem_cons.mp hx with rfl | hx
            · subst h1; decide
            · exact ih2 '|' rest (by decide) hlen hwf x hx
          · rw [if_neg h1] at hwf
            by_cases h2 : c = '<'
            · rw [if_pos h2] at hwf
              rcases List.mem_cons.mp hx with rfl | hx
              · subst h2; decide
              · exact ih2 '>' rest (by decide) hlen hwf x hx
            · rw [if_neg h2] at hwf
              by_cases h3 : c = '['
              · rw [if_pos h3] at hwf
                rcases List.mem_cons.mp hx with rfl | hx
                · subst h3; decide
                · exact ih2 ']' rest (by decide) hlen hwf x hx
              · rw [if_neg h3] at hwf
                by_cases h4 : c = '\x7b'
                · rw [if_pos h4] at hwf
                  rcases List.mem_cons.mp hx with rfl | hx
                  · subst h4; decide
                  · exact ih2 '\x7d' rest (by decide) hlen hwf x hx
                · rw [if_neg h4] at hwf
                  by_cases h5 : c = '/'
                  · rw [if_pos h5] at hwf
                    rcases List.mem_cons.mp hx with rfl | hx
                    · subst h5; decide
                    · exact ih2 '/' rest (by decide) hlen hwf x hx
                  · rw [if_neg h5] at hwf
                    cases hwf
    · intro cl s hcl hlen hwf x hx
      cases s with
      | nil => cases hx
      | cons c rest =>
        simp at hlen
        rw [wfClose] at hwf
        by_cases hc : c = cl
        · rw [if_pos hc] at hwf
          rcases List.mem_cons.mp hx with rfl | hx
          · rw [hc]; exact hcl
          · exact ih1 rest hlen hwf x hx
        · rw [if_neg hc] at hwf
          by_cases h2 : (isAsciiLetter c || c = ' ') = true
          · rw [if_pos h2] at hwf
            rcases List.mem_cons.mp hx with rfl | hx
            · exact alphaOK_of_ok h2
            · exact ih2 cl rest hcl hlen hwf x hx
          · rw [if_neg h2] at hwf
            cases hwf

theorem wfSegs_alpha {s : List Char} (h : wfSegs s = true) :
    ∀ x ∈ s, inClaimAlphabet x = true :=
  (wf_alpha s.length).1 s le_rfl h

theorem stripDelims_append (a b : List Char) :
    stripDelims (a ++ b) = stripDelims a ++ stripDelims b := by
  simp [stripDelims, List.filter_append]

theorem stripDelims_keep_run {u : List Char}
    (h : ∀ x ∈ u, delims.contains x = false) (v : List Char) :
    stripDelims (u ++ v) = u ++ stripDelims v := by
  rw [stripDelims_append]
  have : stripDelims u = u := by
    unfold stripDelims
    apply List.filter_eq_self.mpr
    intro a ha
    simpa using h a ha
  rw [this]

theorem stripDelims_cons_delim {c : Char} (h : delims.contains c = true) (v : List Char) :
    stripDelims (c :: v) = stripDelims v := by
  have hmem : c ∈ delims := by simpa using h
  simp [stripDelims, List.filter_cons, hmem]

theorem wfSegs_append_ok {u : List Char}
    (h : ∀ x ∈ u, (isAsciiLetter x || x = ' ') = true) (v : List Char) :
    wfSegs (u ++ v) = wfSegs v := by
  induction u with
  | nil => rfl
  | cons a u ih =>
    have ha := h a (by simp)
    simp only [List.cons_append]
    rw [wfSegs_cons_ok _ ha]
    exact ih (fun x hx => h x (by simp [hx]))

theorem leadsWith_take : ∀ {p q : List Char}, leadsWith p q = true →
    p.length ≤ q.length ∧ q.take p.length = p := by
  intro p
  induction p with
  | nil => intro q _; simp
  | cons a p ih =>
    intro q h
    cases q with
    | nil => cases h
    | cons c q =>
      simp [leadsWith] at h
      obtain ⟨rfl, h2⟩ := h
      obtain ⟨hle, htake⟩ := ih h2
      constructor
      · simp; omega
      · simp [htake]

theorem lower_to_letter {c : Char} (h : isLowerLetter (toLowerC c) = true) :
    isAsciiLetter c = true := by
  unfold toLowerC at h
  by_cases hU : (65 ≤ c.toNat && c.toNat ≤ 90) = true
  · simp [isAsciiLetter]
    simp at hU
    omega
  · rw [if_neg hU] at h
    simp [isLowerLetter] at h
    simp [isAsciiLetter]
    omega

theorem concatTexts_cons (t : TileData) (ts : List TileData) :
    concatTexts (t :: ts) = tileText t ++ concatTexts ts := rfl

theorem tileStep_space (rest : List Char) :
    tileStep (' ' :: rest) = some (⟨[], TileType.space⟩, rest) := rfl

theorem tileStep_syl (pre rest2 : List Char) (h : ∀ x ∈ pre, x ≠ '|') :
    tileStep ('|' :: (pre ++ '|' :: rest2)) = some (⟨pre, TileType.syllable⟩, rest2) := by
  unfold tileStep
  have h1 : trySpace ('|' :: (pre ++ '|' :: rest2)) = none := by simp +decide [trySpace]
  have h2 : trySyl ('|' :: (pre ++ '|' :: rest2)) = some (⟨pre, TileType.syllable⟩, rest2) := by
    simp +decide [trySyl, splitAtFirst_append rest2 h]
  rw [h1, h2]
  rfl

theorem tileStep_affix (pre rest2 : List Char) (h : ∀ x ∈ pre, x ≠ '>') :
    tileStep ('<' :: (pre ++ '>' :: rest2)) = some (⟨pre, TileType.suffix⟩, rest2) := by
  unfold tileStep
  have h1 : trySpace ('<' :: (pre ++ '>' :: rest2)) = none := by simp +decide [trySpace]
  have h2 : trySyl ('<' :: (pre ++ '>' :: rest2)) = none := by simp +decide [trySyl]
  have h3 : tryAffix ('<' :: (pre ++ '>' :: rest2)) = some (⟨pre, TileType.suffix⟩, rest2) := by
    simp +decide [tryAffix, splitAtFirst_append rest2 h]
  rw [h1, h2, h3]
  rfl

theorem tileStep_vowelOv (pre rest2 : List Char) (h : ∀ x ∈ pre, x ≠ ']') :
    tileStep ('[' :: (pre ++ ']' :: rest2)) = some (⟨pre, TileType.vowel⟩, rest2) := by
  unfold tileStep
  have h1 : trySpace ('[' :: (pre ++ ']' :: rest2)) = none := by simp +decide [trySpace]
  have h2 : trySyl ('[' :: (pre ++ ']' :: rest2)) = none := by simp +decide [trySyl]
  have h3 : tryAffix ('[' :: (pre ++ ']' :: rest2)) = none := by simp +decide [tryAffix]
  have h4 : trySuffix ('[' :: (pre ++ ']' :: rest2)) = none := by simp +decide [trySuffix]
  have h5 : tryPrefixRule ('[' :: (pre ++ ']' :: rest2)) = none := by
    simp +decide [tryPrefixRule, List.takeWhile_cons]
  have h6 : tryVowelOv ('[' :: (pre ++ ']' :: rest2)) = some (⟨pre, TileType.vowel⟩, rest2) := by
    simp +decide [tryVowelOv, splitAtFirst_append rest2 h]
  rw [h1, h2, h3, h4, h5, h6]
  rfl

theorem tileStep_consOv (pre rest2 : List Char) (h : ∀ x ∈ pre, x ≠ '\x7d') :
    tileStep ('\x7b' :: (pre ++ '\x7d' :: rest2)) = some (⟨pre, TileType.consonant⟩, rest2) := by
  unfold tileStep
  have h1 : trySpace ('\x7b' :: (pre ++ '\x7d' :: rest2)) = none := by simp +decide [trySpace]
  have h2 : trySyl ('\x7b' :: (pre ++ '\x7d' :: rest2)) = none := by simp +decide [trySyl]
  have h3 : tryAffix ('\x7b' :: (pre ++ '\x7d' :: rest2)) = none := by simp +decide [tryAffix]
  have h4 : trySuffix ('\x7b' :: (pre ++ '\x7d' :: rest2)) = none := by simp +decide [trySuffix]
  have h5 : tryPrefixRule ('\x7b' :: (pre ++ '\x7d' :: rest2)) = none := by
    simp +decide [tryPrefixRule, List.takeWhile_cons]
  have h6 : tryVowelOv ('\x7b' :: (pre ++ '\x7d' :: rest2)) = none := by simp +decide [tryVowelOv]
  have h7 : tryConsOv ('\x7b' :: (pre ++ '\x7d' :: rest2)) = some (⟨pre, TileType.consonant⟩, rest2) := by
    simp +decide [tryConsOv, splitAtFirst_append rest2 h]
  rw [h1, h2, h3, h4, h5, h6, h7]
  rfl

theorem tileStep_weldOv (pre rest2 : List Char) (h : ∀ x ∈ pre, x ≠ '/') :
    tileStep ('/' :: (pre ++ '/' :: rest2)) = some (⟨pre, TileType.welded⟩, rest2) := by
  unfold tileStep
  have h1 : trySpace ('/' :: (pre ++ '/' :: rest2)) = none := by simp +decide [trySpace]
  have h2 : trySyl ('/' :: (pre ++ '/' :: rest2)) = none := by simp +decide [trySyl]
  have h3 : tryAffix ('/' :: (pre ++ '/' :: rest2)) = none := by simp +decide [tryAffix]
  have h4 : trySuffix ('/' :: (pre ++ '/' :: rest2)) = none := by simp +decide [trySuffix]
  have h5 : tryPrefixRule ('/' :: (pre ++ '/' :: rest2)) = none := by
    simp +decide [tryPrefixRule, List.takeWhile_cons]
  have h6 : tryVowelOv ('/' :: (pre ++ '/' :: rest2)) = none := by simp +decide [tryVowelOv]
  have h7 : tryConsOv ('/' :: (pre ++ '/' :: rest2)) = none := by simp +decide [tryConsOv]
  have h8 : tryWeldOv ('/' :: (pre ++ '/' :: rest2)) = some (⟨pre, TileType.welded⟩, rest2) := by
    simp +decide [tryWeldOv, splitAtFirst_append rest2 h]
  rw [h1, h2, h3, h4, h5, h6, h7, h8]
  rfl

theorem tileStep_letter {c : Char} {rest : List Char} (hc : isAsciiLetter c = true)
    (halpha : ∀ x ∈ (c :: rest), inClaimAlphabet x = true) :
    tileStep (c :: rest) = tryAuto (c :: rest) := by
  have hsp : ¬(c = ' ') := by intro h; subst h; revert hc; decide
  have hpi : ¬(c = '|') := by intro h; subst h; revert hc; decide
  have hlt : ¬(c = '<') := by intro h; subst h; revert hc; decide
  have hhy : ¬(c = '-') := by intro h; subst h; revert hc; decide
  have hbr : ¬(c = '[') := by intro h; subst h; revert hc; decide
  have hcu : ¬(c = '\x7b') := by intro h; subst h; revert hc; decide
  have hsl : ¬(c = '/') := by intro h; subst h; revert hc; decide
  unfold tileStep
  have h1 : trySpace (c :: rest) = none := by simp [trySpace, hsp]
  have h2 : trySyl (c :: rest) = none := by simp [trySyl, hpi]
  have h3 : tryAffix (c :: rest) = none := by simp [tryAffix, hlt]
  have h4 : trySuffix (c :: rest) = none := by simp [trySuffix, hhy]
  have h5 : tryPrefixRule (c :: rest) = none := by
    have hal : isAlnum c = true := by simp [isAlnum, hc]
    simp only [tryPrefixRule, List.takeWhile_cons, hal]
    cases hd : (c :: rest).dropWhile isAlnum with
    | nil => simp [hd]
    | cons a tl =>
      have hamem : a ∈ (c :: rest) := by
        have h0 : a ∈ (c :: rest).dropWhile isAlnum := by rw [hd]; simp
        exact (List.dropWhile_sublist isAlnum).subset h0
      have ha := halpha a hamem
      have hane : ¬(a = '-') := by intro heq; subst heq; revert ha; decide
      simp [hd, hane]
  have h6 : tryVowelOv (c :: rest) = none := by simp [tryVowelOv, hbr]
  have h7 : tryConsOv (c :: rest) = none := by simp [tryConsOv, hcu]
  have h8 : tryWeldOv (c :: rest) = none := by simp [tryWeldOv, hsl]
  rw [h1, h2, h3, h4, h5, h6, h7, h8]
  rfl

theorem c1_consume_letters {n : Nat}
    (IH : ∀ s' : List Char, s'.length ≤ n → wfSegs s' = true →
      concatTexts (parseWordToTiles s') = stripDelims s')
    {s : List Char} {k : Nat} {ty : TileType}
    (hlen : s.length ≤ n + 1) (hwf : wfSegs s = true)
    (hstep : tileStep s = some (⟨s.take k, ty⟩, s.drop k))
    (hk : 1 ≤ k) (hty : ty ≠ TileType.space)
    (hletters : ∀ x ∈ s.take k, isAsciiLetter x = true) :
    concatTexts (parseWordToTiles s) = stripDelims s := by
  rw [parseWordToTiles_step hstep, concatTexts_cons]
  have htile : tileText ⟨s.take k, ty⟩ = s.take k := by simp [tileText, hty]
  have hslen : 1 ≤ s.length := by
    cases s with
    | nil => rw [tileStep_nil] at hstep; cases hstep
    | cons a b => simp
  have hulen : (s.drop k).length ≤ n := by
    have hd := tileStep_length hstep
    have : (s.drop k).length = s.length - k := by simp
    omega
  have hdropwf : wfSegs (s.drop k) = true := by
    have hsplit : s.take k ++ s.drop k = s := List.take_append_drop k s
    have he := wfSegs_append_ok
      (fun x hx => by rw [hletters x hx]; simp) (s.drop k)
    rw [hsplit] at he
    rw [← he]
    exact hwf
  have hstrip : stripDelims s = s.take k ++ stripDelims (s.drop k) := by
    conv_lhs => rw [← List.take_append_drop k s]
    exact stripDelims_keep_run
      (fun x hx => ok_not_delim (by rw [hletters x hx]; simp)) _
  rw [htile, IH _ hulen hdropwf, hstrip]

theorem c1_segment {n : Nat}
    (IH : ∀ s' : List Char, s'.length ≤ n → wfSegs s' = true →
      concatTexts (parseWordToTiles s') = stripDelims s')
    {opener cl : Char} {pre rest2 : List Char} {ty : TileType}
    (hlen : (opener :: (pre ++ cl :: rest2)).length ≤ n + 1)
    (hop : delims.contains opener = true) (hcl : delims.contains cl = true)
    (hpre : ∀ x ∈ pre, (isAsciiLetter x || x = ' ') = true)
    (hstep : tileStep (opener :: (pre ++ cl :: rest2)) = some (⟨pre, ty⟩, rest2))
    (hty : ty ≠ TileType.space)
    (hwf2 : wfSegs rest2 = true) :
    concatTexts (parseWordToTiles (opener :: (pre ++ cl :: rest2))) =
      stripDelims (opener :: (pre ++ cl :: rest2)) := by
  rw [parseWordToTiles_step hstep, concatTexts_cons]
  have htile : tileText ⟨pre, ty⟩ = pre := by simp [tileText, hty]
  have h2len : rest2.length ≤ n := by simp at hlen; omega
  rw [htile, IH rest2 h2len hwf2]
  rw [stripDelims_cons_delim hop]
  rw [stripDelims_keep_run (fun x hx => ok_not_delim (hpre x hx)) (cl :: rest2)]
  rw [stripDelims_cons_delim hcl]

theorem weldedSounds_mem_facts :
    ∀ p ∈ weldedSounds, p.isEmpty = false ∧ p.all isLowerLetter = true := by decide

theorem vowelTeams_mem_facts :
    ∀ p ∈ vowelTeams, p.isEmpty = false ∧ p.all isLowerLetter = true := by decide

theorem rControlled_mem_facts :
    ∀ p ∈ rControlled, p.isEmpty = false ∧ p.all isLowerLetter = true := by decide

theorem digraphs_mem_facts :
    ∀ p ∈ digraphs, p.isEmpty = false ∧ p.all isLowerLetter = true := by decide

theorem c1_table_case {n : Nat}
    (IH : ∀ s' : List Char, s'.length ≤ n → wfSegs s' = true →
      concatTexts (parseWordToTiles s') = stripDelims s')
    {c : Char} {rest p : List Char} {ty : TileType}
    (hlen : (c :: rest).length ≤ n + 1) (hwfs : wfSegs (c :: rest) = true)
    (hstep : tileStep (c :: rest) =
      some (⟨(c :: rest).take p.length, ty⟩, (c :: rest).drop p.length))
    (hne : p.isEmpty = false) (hall : p.all isLowerLetter = true)
    (hld : leadsWith p (lowerL (c :: rest)) = true)
    (hty : ty ≠ TileType.space) :
    concatTexts (parseWordToTiles (c :: rest)) = stripDelims (c :: rest) := by
  obtain ⟨hle, htake⟩ := leadsWith_take hld
  have htake2 : List.map toLowerC ((c :: rest).take p.length) = p := by
    have hmt : (List.map toLowerC (c :: rest)).take p.length
        = List.map toLowerC ((c :: rest).take p.length) := by
      rw [List.map_take]
    rw [← hmt]
    exact htake
  have hletters : ∀ x ∈ (c :: rest).take p.length, isAsciiLetter x = true := by
    intro x hx
    have himg : toLowerC x ∈ p := by
      rw [← htake2]
      exact List.mem_map_of_mem toLowerC hx
    exact lower_to_letter (List.all_eq_true.mp hall _ himg)
  have hk : 1 ≤ p.length := by
    cases p with
    | nil => simp at hne
    | cons a b => simp
  exact c1_consume_letters IH hlen hwfs hstep hk hty hletters

theorem c1_main : ∀ (n : Nat) (s : List Char), s.length ≤ n → wfSegs s = true →
    concatTexts (parseWordToTiles s) = stripDelims s := by
  intro n
  induction n with
  | zero =>
    intro s hlen _
    cases s with
    | nil => rfl
    | cons a b => simp at hlen
  | succ n ih =>
    intro s hlen hwf
    cases s with
    | nil => rfl
    | cons c rest =>
      have hwfs := hwf
      rw [wfSegs] at hwf
      by_cases hok : (isAsciiLetter c || c = ' ') = true
      · rw [if_pos hok] at hwf
        by_cases hsp : c = ' '
        · subst hsp
          rw [parseWordToTiles_step (tileStep_space rest), concatTexts_cons]
          have ht : tileText ⟨[], TileType.space⟩ = [' '] := rfl
          have hlen2 : rest.length ≤ n := by simp at hlen; omega
          rw [ht, ih rest hlen2 hwf]
          have hnd : delims.contains ' ' = false := by decide
          have hstr : stripDelims (' ' :: rest) = ' ' :: stripDelims rest := by
            have hmem : (' ' : Char) ∉ delims := by decide
            simp [stripDelims, List.filter_cons, hmem]
          rw [hstr]
          rfl
        · have hc : isAsciiLetter c = true := by
            cases hcl : isAsciiLetter c with
            | true => rfl
            | false =>
              exfalso
              rw [hcl] at hok
              simp at hok
              exact hsp hok
          have halpha := wfSegs_alpha hwfs
          have hstepA := tileStep_letter hc halpha
          cases hA1 : firstHit weldedSounds (lowerL (c :: rest)) with
          | some p =>
            obtain ⟨hne, hallp⟩ := weldedSounds_mem_facts p (firstHit_mem hA1)
            have hauto : tryAuto (c :: rest) =
                some (⟨(c :: rest).take p.length, TileType.welded⟩, (c :: rest).drop p.length) := by
              simp only [tryAuto]
              rw [hA1]
            exact c1_table_case ih hlen hwfs (hstepA.trans hauto) hne hallp
              (firstHit_leads hA1) (by decide)
          | none =>
          cases hA2 : firstHit vowelTeams (lowerL (c :: rest)) with
          | some p =>
            obtain ⟨hne, hallp⟩ := vowelTeams_mem_facts p (firstHit_mem hA2)
            have hauto : tryAuto (c :: rest) =
                some (⟨(c :: rest).take p.length, TileType.vowelTeam⟩, (c :: rest).drop p.length) := by
              simp only [tryAuto]
              rw [hA1, hA2]
            exact c1_table_case ih hlen hwfs (hstepA.trans hauto) hne hallp
              (firstHit_leads hA2) (by decide)
          | none =>
          cases hA3 : firstHit rControlled (lowerL (c :: rest)) with
          | some p =>
            obtain ⟨hne, hallp⟩ := rControlled_mem_facts p (firstHit_mem hA3)
            have hauto : tryAuto (c :: rest) =
                some (⟨(c :: rest).take p.length, TileType.rControl⟩, (c :: rest).drop p.length) := by
              simp only [tryAuto]
              rw [hA1, hA2, hA3]
            exact c1_table_case ih hlen hwfs (hstepA.trans hauto) hne hallp
              (firstHit_leads hA3) (by decide)
          | none =>
          cases hA4 : firstHit digraphs (lowerL (c :: rest)) with
          | some p =>
            obtain ⟨hne, hallp⟩ := digraphs_mem_facts p (firstHit_mem hA4)
            have hauto : tryAuto (c :: rest) =
                some (⟨(c :: rest).take p.length, TileType.digraph⟩, (c :: rest).drop p.length) := by
              simp only [tryAuto]
              rw [hA1, hA2, hA3, hA4]
            exact c1_table_case ih hlen hwfs (hstepA.trans hauto) hne hallp
              (firstHit_leads hA4) (by decide)
          | none =>
            have hone : ∀ x ∈ (c :: rest).take 1, isAsciiLetter x = true := by
              intro x hx
              have : x = c := by simpa using hx
              subst this
              exact hc
            by_cases hv : vowels.contains (toLowerC c) = true
            · have hauto : tryAuto (c :: rest) = some (⟨[c], TileType.vowel⟩, rest) := by
                simp only [tryAuto]
                rw [hA1, hA2, hA3, hA4, if_pos hv]
              have hstep : tileStep (c :: rest) =
                  some (⟨(c :: rest).take 1, TileType.vowel⟩, (c :: rest).drop 1) := by
                rw [hstepA, hauto]
                rfl
              exact c1_consume_letters ih hlen hwfs hstep le_rfl (by decide) hone
            · have hauto : tryAuto (c :: rest) = some (⟨[c], TileType.consonant⟩, rest) := by
                simp only [tryAuto]
                rw [hA1, hA2, hA3, hA4, if_neg hv]
              have hstep : tileStep (c :: rest) =
                  some (⟨(c :: rest).take 1, TileType.consonant⟩, (c :: rest).drop 1) := by
                rw [hstepA, hauto]
                rfl
              exact c1_consume_letters ih hlen hwfs hstep le_rfl (by decide) hone
      · rw [if_neg hok] at hwf
        by_cases h1 : c = '|'
        · subst h1
          rw [if_pos rfl] at hwf
          obtain ⟨pre, rest2, heq, hmem, hwf2⟩ := wfClose_decomp hwf
          subst heq
          exact c1_segment ih hlen (by decide) (by decide) (fun x hx => (hmem x hx).1)
            (tileStep_syl pre rest2 (fun x hx => (hmem x hx).2)) (by decide) hwf2
        · rw [if_neg h1] at hwf
          by_cases h2 : c = '<'
          · subst h2
            rw [if_pos rfl] at hwf
            obtain ⟨pre, rest2, heq, hmem, hwf2⟩ := wfClose_decomp hwf
            subst heq
            exact c1_segment ih hlen (by decide) (by decide) (fun x hx => (hmem x hx).1)
              (tileStep_affix pre rest2 (fun x hx => (hmem x hx).2)) (by decide) hwf2
          · rw [if_neg h2] at hwf
            by_cases h3 : c = '['
            · subst h3
              rw [if_pos rfl] at hwf
              obtain ⟨pre, rest2, heq, hmem, hwf2⟩ := wfClose_decomp hwf
              subst heq
              exact c1_segment ih hlen (by decide) (by decide) (fun x hx => (hmem x hx).1)
                (tileStep_vowelOv pre rest2 (fun x hx => (hmem x hx).2)) (by decide) hwf2
            · rw [if_neg h3] at hwf
              by_cases h4 : c = '\x7b'
              · subst h4
                rw [if_pos rfl] at hwf
                obtain ⟨pre, rest2, heq, hmem, hwf2⟩ := wfClose_decomp hwf
                subst heq
                exact c1_segment ih hlen (by decide) (by decide) (fun x hx => (hmem x hx).1)
                  (tileStep_consOv pre rest2 (fun x hx => (hmem x hx).2)) (by decide) hwf2
              · rw [if_neg h4] at hwf
                by_cases h5 : c = '/'
                · subst h5
                  rw [if_pos rfl] at hwf
                  obtain ⟨pre, rest2, heq, hmem, hwf2⟩ := wfClose_decomp hwf
                  subst heq
                  exact c1_segment ih hlen (by decide) (by decide) (fun x hx => (hmem x hx).1)
                    (tileStep_weldOv pre rest2 (fun x hx => (hmem x hx).2)) (by decide) hwf2
                · rw [if_neg h5] at hwf
                  cases hwf

/-- Counterexample to claim C1: the single-character string `"{"` consists
only of letters, spaces and override delimiter characters, yet the
concatenation of tile texts is `"{"` (the unmatched brace falls through to the
consonant fallback) while the delimiter-stripped form of the input is empty. -/
theorem c1_counterexample :
    (str "\x7b").all inClaimAlphabet = true ∧
    concatTexts (parseWordToTiles (str "\x7b")) ≠ stripDelims (str "\x7b") := by
  refine ⟨by decide, by decide⟩

/-- Claim C1 as amended: for every string made of letters, spaces, and
well-formed override segments (each opening delimiter matched by its closing
delimiter, with only letters and spaces in between), concatenating the tile
texts returned by `parseWordToTiles` — a `space` tile contributing a single
space — yields the input with the override delimiter characters removed. -/
theorem c1_amended (s : List Char) (h : wfSegs s = true) :
    concatTexts (parseWordToTiles s) = stripDelims s :=
  c1_main s.length s le_rfl h

/-- Witness for the amended C1 at a concrete well-formed input mixing plain
letters, a space, and three kinds of override segments. -/
theorem c1_amended_witness :
    wfSegs (str "c\x7ba\x7dt |ig| /an/") = true ∧
    concatTexts (parseWordToTiles (str "c\x7ba\x7dt |ig| /an/")) =
      stripDelims (str "c\x7ba\x7dt |ig| /an/") :=
  ⟨by decide, c1_amended (str "c\x7ba\x7dt |ig| /an/") (by decide)⟩

/-! ### Claims C4, C5, C6 about the importer -/

/-- Claim C4 is wrong about the code (code bug): `parseLessonText` CAN throw.
With input `",,Lesson Plan\nx,y"` and targets `"3"`/`"1"`, the CSV header maps
`lesson plan` to column 2, the data row `x,y` has only two cells, so
`row[2]?.trim()` is `undefined` and `colLessonPlan.startsWith(targetIdentifier)`
throws a TypeError — modelled here as `Res.typeError`. -/
theorem c4_throws_typeerror :
    parseLessonText gen0 (str ",,Lesson Plan\nx,y") (some (str "3")) (some (str "1")) =
      Res.typeError := by decide

/-- Counterexample to claim C5: for the input `"\n,,a"` the first NON-EMPTY
line starts with `,,` so the claim's detector says CSV, but the code tests
`lines[0]` — the literal first line, which is empty here — so `isCSVB` is
false and the importer takes the freeform-text path. -/
theorem c5_counterexample :
    isCSVClaimed (str "\n,,a") = true ∧
    isCSVB (str "\n,,a") = false ∧
    parseLessonTextF gen0 ((str "\n,,a").length + 1) (str "\n,,a") none none 0 =
      Res.ok (freeformParse gen0 (str "\n,,a") 0).1 (freeformParse gen0 (str "\n,,a") 0).2 := by
  refine ⟨by decide, by decide, by decide⟩

/-- Claim C5 as amended: the importer takes the CSV path exactly when the
input's FIRST line (trimmed, whether or not it is empty) starts with `,,`, or
that first line contains a comma and the document has more than 2 lines; on
every other input the freeform-text path runs. -/
theorem c5_amended (text : List Char) (gen : Nat → List Char)
    (tStep tSub : Option (List Char)) (ctr fuel : Nat) :
    (isCSVB text =
      (leadsWith (str ",,") (trim ((splitNl text).headD [])) ||
        ((trim ((splitNl text).headD [])).contains ',' &&
          decide ((splitNl text).length > 2)))) ∧
    (isCSVB text = false →
      parseLessonTextF gen (fuel + 1) text tStep tSub ctr =
        Res.ok (freeformParse gen text ctr).1 (freeformParse gen text ctr).2) := by
  constructor
  · rfl
  · intro h
    simp only [parseLessonTextF]
    rw [h]
    simp

/-- Witness for the amended C5 at a concrete non-CSV input. -/
theorem c5_amended_witness :
    isCSVB (str "hello") = false ∧
    parseLessonTextF gen0 1 (str "hello") none none 0 =
      Res.ok (freeformParse gen0 (str "hello") 0).1 (freeformParse gen0 (str "hello") 0).2 :=
  ⟨by decide, (c5_amended (str "hello") gen0 none none 0 0).2 (by decide)⟩

/-- Counterexample to claim C6: the 2-row CSV of the claim never reaches the
CSV path, because the detector requires MORE than 2 lines when the first line
does not start with `,,`; the freeform fallback then shreds the quoted data
row into the hfw list, which is not `["full","pull"]`. -/
theorem c6_counterexample :
    isCSVB (str "Lesson Plan,New Sight Words,Sentences\n\"3.1\",\"full,pull\",\"The cat sat. More text here.\"") = false ∧
    hfwOf (parseLessonText gen0
      (str "Lesson Plan,New Sight Words,Sentences\n\"3.1\",\"full,pull\",\"The cat sat. More text here.\"")
      (some (str "3")) (some (str "1"))) ≠ [str "full", str "pull"] := by
  refine ⟨by decide, by decide⟩

/-- Claim C6 as amended: with the same CSV made 3 lines long by a trailing
newline (the CSV detector needs more than 2 lines), the targeted import
returns `hfwList = ["full","pull"]` and `sentences` holding the matched row's
sentence cell (one newline-split entry longer than 5 characters). -/
theorem c6_amended :
    hfwOf (parseLessonText gen0
      (str "Lesson Plan,New Sight Words,Sentences\n\"3.1\",\"full,pull\",\"The cat sat. More text here.\"\n")
      (some (str "3")) (some (str "1"))) = [str "full", str "pull"] ∧
    sentencesOf (parseLessonText gen0
      (str "Lesson Plan,New Sight Words,Sentences\n\"3.1\",\"full,pull\",\"The cat sat. More text here.\"\n")
      (some (str "3")) (some (str "1"))) = [str "The cat sat. More text here."] := by
  refine ⟨by decide, by decide⟩

/-! ### Claim C8: quickDrill/hfw content lines -/

/-- Counterexample to claim C8: in the quickDrill section, the line `"apart"`
matches no section-header keyword and has no colon, and its list extraction is
`["apart"]`, yet the importer leaves `quickDrill` empty — the code additionally
requires a quickDrill content line not to contain the substring `"part"`. -/
theorem c8_counterexample :
    isHeaderLine (lowerL (cleanLine (str "apart"))) = false ∧
    (cleanLine (str "apart")).contains ':' = false ∧
    extractList (cleanLine (str "apart")) = [str "apart"] ∧
    quickDrillOf (parseLessonText gen0 (str "Quick Drill\napart") none none) = [] := by
  refine ⟨by decide, by decide, by decide, by decide⟩

/-- Claim C8 as amended: while the active section is `hfw`, every line that
matches no section-header keyword and contains no colon is run through the
list extraction and appended to the hfw list; while the active section is
`quickDrill` the same holds under the additional requirement that the
(lowercased) line does not contain the substring `"part"`. -/
theorem c8_amended (gen : Nat → List Char) (st : FFState) (raw : List Char) :
    (st.sect = Sect.hfw →
      isHeaderLine (lowerL (cleanLine raw)) = false →
      (cleanLine raw).contains ':' = false →
      (processLine gen st raw).ext.hfwList = st.ext.hfwList ++ extractList (cleanLine raw)) ∧
    (st.sect = Sect.quickDrill →
      isHeaderLine (lowerL (cleanLine raw)) = false →
      (cleanLine raw).contains ':' = false →
      containsSub (str "part") (lowerL (cleanLine raw)) = false →
      (processLine gen st raw).ext.quickDrill =
        st.ext.quickDrill ++ extractList (cleanLine raw)) := by
  constructor
  · intro hs hhdr hcol
    have hcol2 : ':' ∉ cleanLine raw := by simpa using hcol
    simp [isHeaderLine] at hhdr
    simp [processLine, hhdr, hs, hcol2]
  · intro hs hhdr hcol hpart
    have hcol2 : ':' ∉ cleanLine raw := by simpa using hcol
    simp [isHeaderLine] at hhdr
    simp [processLine, hhdr, hs, hcol2, hpart]

/-- Witness for the amended C8 at a concrete state in the hfw section. -/
theorem c8_amended_witness :
    isHeaderLine (lowerL (cleanLine (str "cat, dog"))) = false ∧
    (cleanLine (str "cat, dog")).contains ':' = false ∧
    (processLine gen0 ⟨Sect.hfw, DictMode.none, initRec, 0⟩ (str "cat, dog")).ext.hfwList =
      initRec.hfwList ++ extractList (cleanLine (str "cat, dog")) :=
  ⟨by decide, by decide,
   (c8_amended gen0 ⟨Sect.hfw, DictMode.none, initRec, 0⟩ (str "cat, dog")).1 rfl
     (by decide) (by decide)⟩

/-! ### Claim C10: termination of the importer -/

theorem trim_length_le (l : List Char) : (trim l).length ≤ l.length := by
  unfold trim
  have h1 : (l.dropWhile isWS).length ≤ l.length := (List.dropWhile_sublist _).length_le
  have h2 : ((l.dropWhile isWS).reverse.dropWhile isWS).length ≤ (l.dropWhile isWS).reverse.length :=
    (List.dropWhile_sublist _).length_le
  simp at h2 ⊢
  omega


theorem stripStartQuote_length_le (s : List Char) : (stripStartQuote s).length ≤ s.length := by
  rw [stripStartQuote.eq_def]
  split
  · simp
  · simp

theorem stripEndQuote_length_le (s : List Char) : (stripEndQuote s).length ≤ s.length := by
  unfold stripEndQuote
  split
  · rename_i rev hrev
    have h2 : ('"' :: rev).length = s.reverse.length := by rw [hrev]
    simp at h2 ⊢
    omega
  · simp

theorem stripEdgeQuotes_length_le (s : List Char) : (stripEdgeQuotes s).length ≤ s.length := by
  unfold stripEdgeQuotes
  have h1 := stripStartQuote_length_le s
  have h2 := stripEndQuote_length_le (stripStartQuote s)
  omega

theorem cleanCell_length_le (s : List Char) : (cleanCell s).length ≤ s.length := by
  unfold cleanCell
  have h1 := trim_length_le s
  have h2 := stripEdgeQuotes_length_le (trim s)
  have h3 := trim_length_le (stripEdgeQuotes (trim s))
  omega

theorem parseCSVLineGo_mem_length : ∀ (n : Nat) (l : List Char), l.length ≤ n →
    ∀ (inQ : Bool) (acc cell : List Char), cell ∈ parseCSVLineGo inQ acc l →
      cell.length ≤ acc.length + l.length := by
  intro n
  induction n with
  | zero =>
    intro l hlen inQ acc cell hcell
    cases l with
    | cons a b => simp at hlen
    | nil =>
      simp [parseCSVLineGo] at hcell
      simp [hcell]
  | succ n ih =>
    intro l hlen inQ acc cell hcell
    rw [parseCSVLineGo.eq_def] at hcell
    split at hcell
    · simp at hcell
      simp [hcell]
    · have h2 := ih _ (by simp at hlen ⊢; omega) _ _ _ hcell
      simp at h2 ⊢
      omega
    · have h2 := ih _ (by simp at hlen ⊢; omega) _ _ _ hcell
      simp at h2 ⊢
      omega
    · have h2 := ih _ (by simp at hlen ⊢; omega) _ _ _ hcell
      simp at h2 ⊢
      omega
    · split at hcell
      · rcases List.mem_cons.mp hcell with rfl | hcell
        · simp
        · have h2 := ih _ (by simp at hlen ⊢; omega) _ _ _ hcell
          simp at h2 ⊢
          omega
      · have h2 := ih _ (by simp at hlen ⊢; omega) _ _ _ hcell
        simp at h2 ⊢
        omega

theorem parseCSVLine_mem_length {l cell : List Char} (h : cell ∈ parseCSVLine l) :
    cell.length ≤ l.length := by
  unfold parseCSVLine at h
  obtain ⟨cell0, hmem, rfl⟩ := List.mem_map.mp h
  have h1 := parseCSVLineGo_mem_length l.length l le_rfl false [] cell0 hmem
  have h2 := cleanCell_length_le cell0
  simp at h1
  omega

theorem splitOnP_mem_length {p : Char → Bool} :
    ∀ {l piece : List Char}, piece ∈ splitOnP p l → piece.length ≤ l.length := by
  intro l
  induction l with
  | nil =>
    intro piece h
    simp [splitOnP] at h
    simp [h]
  | cons c rest ih =>
    intro piece h
    by_cases hp : p c = true
    · have he : splitOnP p (c :: rest) = [] :: splitOnP p rest := by
        simp [splitOnP, hp]
      rw [he] at h
      rcases List.mem_cons.mp h with rfl | h
      · simp
      · have := ih h
        simp
        omega
    · cases hsp : splitOnP p rest with
      | nil =>
        have he : splitOnP p (c :: rest) = [[c]] := by
          simp only [splitOnP, hp, if_false, Bool.false_eq_true]
          rw [hsp]
        rw [he] at h
        simp at h
        subst h
        have hrest : (1 : Nat) ≤ rest.length + 1 := by omega
        simpa using hrest
      | cons piece0 ps =>
        have he : splitOnP p (c :: rest) = (c :: piece0) :: ps := by
          simp only [splitOnP, hp, if_false, Bool.false_eq_true]
          rw [hsp]
        rw [he] at h
        rcases List.mem_cons.mp h with rfl | h
        · have hm : piece0 ∈ splitOnP p rest := by rw [hsp]; simp
          have := ih hm
          simp
          omega
        · have hm : piece ∈ splitOnP p rest := by rw [hsp]; simp [h]
          have := ih hm
          simp
          omega

theorem splitOnP_drop_mem_length {p : Char → Bool} :
    ∀ {l piece : List Char}, piece ∈ (splitOnP p l).drop 1 → piece.length < l.length := by
  intro l
  induction l with
  | nil =>
    intro piece h
    simp [splitOnP] at h
  | cons c rest ih =>
    intro piece h
    by_cases hp : p c = true
    · have he : splitOnP p (c :: rest) = [] :: splitOnP p rest := by
        simp [splitOnP, hp]
      rw [he] at h
      simp at h
      have := splitOnP_mem_length h
      simp
      omega
    · cases hsp : splitOnP p rest with
      | nil =>
        have he : splitOnP p (c :: rest) = [[c]] := by
          simp only [splitOnP, hp, if_false, Bool.false_eq_true]
          rw [hsp]
        rw [he] at h
        simp at h
      | cons piece0 ps =>
        have he : splitOnP p (c :: rest) = (c :: piece0) :: ps := by
          simp only [splitOnP, hp, if_false, Bool.false_eq_true]
          rw [hsp]
        rw [he] at h
        simp at h
        have hm : piece ∈ (splitOnP p rest).drop 1 := by
          rw [hsp]
          simpa using h
        have := ih hm
        simp
        omega

theorem getColF_cases (indices : List (List Char × Nat)) (dataRow : List (List Char)) :
    ∀ (hs : List (List Char)),
      getColF indices dataRow hs = [] ∨ getColF indices dataRow hs ∈ dataRow := by
  intro hs
  induction hs with
  | nil => exact Or.inl rfl
  | cons hh hs ih =>
    cases hl : lookupIdx indices (lowerL hh) with
    | none =>
      have he : getColF indices dataRow (hh :: hs) = getColF indices dataRow hs := by
        simp only [getColF]
        rw [hl]
      rw [he]
      exact ih
    | some idx =>
      cases hc : dataRow.get? idx with
      | none =>
        have hc2 : dataRow[idx]? = (none : Option (List Char)) := by simpa using hc
        have he : getColF indices dataRow (hh :: hs) = getColF indices dataRow hs := by
          simp only [getColF]
          rw [hl]
          simp [hc2]
        rw [he]
        exact ih
      | some cell =>
        have hc2 : dataRow[idx]? = some cell := by simpa using hc
        by_cases hce : cell = []
        · have he : getColF indices dataRow (hh :: hs) = getColF indices dataRow hs := by
            simp only [getColF]
            rw [hl]
            simp [hc2, hce]
          rw [he]
          exact ih
        · have he : getColF indices dataRow (hh :: hs) = cell := by
            simp only [getColF]
            rw [hl]
            simp [hc2, hce]
          rw [he]
          right
          exact List.get?_mem hc

theorem findDataRow_provenance {indices : List (List Char × Nat)} {tid : Option (List Char)} :
    ∀ {ls : List (List Char)} {row : List (List Char)},
      findDataRow indices tid ls = Except.ok (some row) →
      ∃ l ∈ ls, row = parseCSVLine l := by
  intro ls
  induction ls with
  | nil =>
    intro row h
    simp [findDataRow] at h
  | cons l rest ih =>
    intro row h
    simp only [findDataRow] at h
    split at h
    · obtain ⟨l', hl', heq⟩ := ih h
      exact ⟨l', by simp [hl'], heq⟩
    · split at h
      · split at h
        · simp at h
          exact ⟨l, by simp, h.symm⟩
        · split at h
          · simp at h
          · split at h
            · simp at h
              exact ⟨l, by simp, h.symm⟩
            · obtain ⟨l', hl', heq⟩ := ih h
              exact ⟨l', by simp [hl'], heq⟩
      · split at h
        · simp at h
          exact ⟨l, by simp, h.symm⟩
        · obtain ⟨l', hl', heq⟩ := ih h
          exact ⟨l', by simp [hl'], heq⟩

theorem csvExtract_dict (gen : Nat → List Char) (indices : List (List Char × Nat))
    (dataRow : List (List Char)) (ctr : Nat) :
    ((csvExtract gen indices dataRow ctr).2).2 = getColF indices dataRow [str "dictation"] := rfl

/-- Claim C10 (confirmed): the importer terminates on every input.  With fuel
strictly greater than the input length, the fueled model never exhausts its
fuel: its one recursive call — the dictation-cell reparse, which passes no
target step/substep — receives a single CSV cell of one of the lines after
the first, and such a cell is strictly shorter than the whole input. -/
theorem c10_importer_terminates (gen : Nat → List Char) :
    ∀ (fuel : Nat) (text : List Char) (tStep tSub : Option (List Char)) (ctr : Nat),
      text.length < fuel → parseLessonTextF gen fuel text tStep tSub ctr ≠ Res.fuelOut := by
  intro fuel
  induction fuel with
  | zero => intro text _ _ _ h; omega
  | succ fuel ih =>
    intro text tStep tSub ctr hlen
    simp only [parseLessonTextF]
    split
    · cases hfd : findDataRow (buildIndices (parseCSVLine (trim ((splitNl text).headD []))))
        (targetIdOf tStep tSub) ((splitNl text).drop 1) with
      | error e => simp
      | ok o =>
        cases o with
        | none => simp
        | some dataRow =>
          simp only []
          split
          · rename_i hne
            have hdict := csvExtract_dict gen
              (buildIndices (parseCSVLine (trim ((splitNl text).headD [])))) dataRow ctr
            have hlt : (((csvExtract gen (buildIndices (parseCSVLine (trim ((splitNl text).headD []))))
                dataRow ctr).2).2).length < text.length := by
              rcases getColF_cases (buildIndices (parseCSVLine (trim ((splitNl text).headD []))))
                  dataRow [str "dictation"] with hnil | hmem
              · rw [hdict, hnil] at hne
                simp at hne
              · obtain ⟨l, hl, rfl⟩ := findDataRow_provenance hfd
                have h1 : (getColF (buildIndices (parseCSVLine (trim ((splitNl text).headD []))))
                    (parseCSVLine l) [str "dictation"]).length ≤ l.length :=
                  parseCSVLine_mem_length hmem
                have h2 : l.length < text.length := splitOnP_drop_mem_length hl
                rw [hdict]
                omega
            have hsub := ih (((csvExtract gen (buildIndices (parseCSVLine
              (trim ((splitNl text).headD [])))) dataRow ctr).2).2) none none
              (((csvExtract gen (buildIndices (parseCSVLine (trim ((splitNl text).headD []))))
                dataRow ctr).2).1) (by omega)
            cases hrec : parseLessonTextF gen fuel (((csvExtract gen (buildIndices (parseCSVLine
                (trim ((splitNl text).headD [])))) dataRow ctr).2).2) none none
                (((csvExtract gen (buildIndices (parseCSVLine (trim ((splitNl text).headD []))))
                  dataRow ctr).2).1) with
            | ok p c3 =>
              cases hd : p.dictation <;> simp [hd]
            | typeError => simp
            | fuelOut => exact absurd hrec hsub
          · simp
    · simp

/-! ### Claim C9: determinism up to generated ids -/

theorem assignIds_canonical (gen : Nat → List Char) :
    ∀ (c : Nat) (ws : List (List Char)),
      ((assignIds gen c ws).1).map eraseCard =
        ws.map (fun w => (⟨[], w, str "regular"⟩ : Card)) := by
  intro c ws
  induction ws generalizing c with
  | nil => rfl
  | cons w rest ih =>
    simp [assignIds, eraseCard]
    exact ih (c + 1)

theorem eraseIds_components {a b : LessonRec} (h : eraseIds a = eraseIds b) :
    a.step = b.step ∧ a.substep = b.substep ∧ a.dictation = b.dictation ∧
    a.quickDrill = b.quickDrill ∧ a.hfwList = b.hfwList ∧
    a.wordCards.map eraseCard = b.wordCards.map eraseCard ∧
    a.sentences = b.sentences ∧ a.passage = b.passage := by
  cases a
  cases b
  simp [eraseIds, LessonRec.mk.injEq] at h
  simp [h]

theorem finalize_erase_comm (a : LessonRec) (ts tss : Option (List Char)) :
    eraseIds (finalizeStep a ts tss) = finalizeStep (eraseIds a) ts tss := by
  cases a
  simp only [finalizeStep, eraseIds]
  split <;> split <;> simp_all

theorem eraseIds_finalize {a b : LessonRec} (ts tss : Option (List Char))
    (h : eraseIds a = eraseIds b) :
    eraseIds (finalizeStep a ts tss) = eraseIds (finalizeStep b ts tss) := by
  rw [finalize_erase_comm, finalize_erase_comm, h]

theorem eraseIds_set_dictation {a b : LessonRec} (d : Option Dictation)
    (h : eraseIds a = eraseIds b) :
    eraseIds { a with dictation := d } = eraseIds { b with dictation := d } := by
  cases a
  cases b
  simp [eraseIds, LessonRec.mk.injEq] at h ⊢
  simp [h]

theorem csvExtract_erase (gen gen' : Nat → List Char) (ind : List (List Char × Nat))
    (row : List (List Char)) (c c' : Nat) :
    eraseIds (csvExtract gen ind row c).1 = eraseIds (csvExtract gen' ind row c').1 := by
  simp [csvExtract, eraseIds, assignIds_canonical]

theorem dictLine_erase (rawLine line lower : List Char) :
    ∀ (st st' : FFState), eraseFF st = eraseFF st' →
      eraseFF (dictLine st rawLine line lower) = eraseFF (dictLine st' rawLine line lower) := by
  intro st st' h
  obtain ⟨se1, dm1, ext1, c1⟩ := st
  obtain ⟨se2, dm2, ext2, c2⟩ := st'
  simp [eraseFF, FFState.mk.injEq] at h
  obtain ⟨hs, hd, hext⟩ := h
  subst hs
  subst hd
  obtain ⟨s1, ss1, d1, q1, hf1, w1, sen1, p1⟩ := ext1
  obtain ⟨s2, ss2, d2, q2, hf2, w2, sen2, p2⟩ := ext2
  simp [eraseIds, LessonRec.mk.injEq] at hext
  obtain ⟨e1, e2, e3, e4, e5, e6, e7, e8⟩ := hext
  subst e1
  subst e2
  subst e3
  subst e4
  subst e5
  subst e7
  subst e8
  simp only [dictLine]
  cases d1 with
  | none => simp [eraseFF, eraseIds, e6]
  | some dd =>
    by_cases hc : (!(dictContent line).isEmpty && !(trim (dictContent line)).isEmpty) = true
    · cases hdet : detectNumeric dm1 rawLine (detectExplicit dm1 lower) <;>
        simp [hc, eraseFF, eraseIds, e6] <;>
        split <;>
        simp [eraseFF, eraseIds, e6]
    · simp [hc, eraseFF, eraseIds, e6]

theorem processLine_eraseFF (gen gen' : Nat → List Char) (rawLine : List Char) :
    ∀ (st st' : FFState), eraseFF st = eraseFF st' →
      eraseFF (processLine gen st rawLine) = eraseFF (processLine gen' st' rawLine) := by
  intro st st' h
  obtain ⟨se1, dm1, ext1, c1⟩ := st
  obtain ⟨se2, dm2, ext2, c2⟩ := st'
  simp [eraseFF, FFState.mk.injEq] at h
  obtain ⟨hs, hd, hext⟩ := h
  subst hs
  subst hd
  obtain ⟨s1, ss1, d1, q1, hf1, w1, sen1, p1⟩ := ext1
  obtain ⟨s2, ss2, d2, q2, hf2, w2, sen2, p2⟩ := ext2
  simp [eraseIds, LessonRec.mk.injEq] at hext
  obtain ⟨e1, e2, e3, e4, e5, e6, e7, e8⟩ := hext
  subst e1
  subst e2
  subst e3
  subst e4
  subst e5
  subst e7
  subst e8
  simp only [processLine]
  by_cases h1 : (containsSub (str "quick drill") (lowerL (cleanLine rawLine))
      || containsSub (str "visual drill") (lowerL (cleanLine rawLine))
      || containsSub (str "part 1") (lowerL (cleanLine rawLine))) = true
  · rw [if_pos h1, if_pos h1]
    cases hcs : colonSeg1 (cleanLine rawLine) with
    | none => simp [eraseFF, eraseIds, e6]
    | some content =>
      by_cases hcc : (!content.isEmpty && !(trim content).isEmpty) = true <;>
        simp [hcc, eraseFF, eraseIds, e6]
  · rw [if_neg h1, if_neg h1]
    by_cases h2 : (containsSub (str "word cards") (lowerL (cleanLine rawLine))
        || containsSub (str "word list") (lowerL (cleanLine rawLine))
        || containsSub (str "part 3") (lowerL (cleanLine rawLine))
        || containsSub (str "words for reading") (lowerL (cleanLine rawLine))) = true
    · rw [if_pos h2, if_pos h2]
      cases hcs : colonSeg1 (cleanLine rawLine) with
      | none => simp [eraseFF, eraseIds, e6]
      | some content =>
        by_cases hcc : (!content.isEmpty && !(trim content).isEmpty) = true <;>
          simp [hcc, eraseFF, eraseIds, e6, assignIds_canonical]
    · rw [if_neg h2, if_neg h2]
      by_cases h3 : (containsSub (str "sight words") (lowerL (cleanLine rawLine))
          || containsSub (str "hfw") (lowerL (cleanLine rawLine))
          || containsSub (str "high frequency") (lowerL (cleanLine rawLine))) = true
      · rw [if_pos h3, if_pos h3]
        cases hcs : colonSeg1 (cleanLine rawLine) with
        | none => simp [eraseFF, eraseIds, e6]
        | some content =>
          by_cases hcc : (!content.isEmpty && !(trim content).isEmpty) = true <;>
            simp [hcc, eraseFF, eraseIds, e6]
      · rw [if_neg h3, if_neg h3]
        by_cases h4 : (containsSub (str "sentences for reading") (lowerL (cleanLine rawLine))
            || containsSub (str "part 5") (lowerL (cleanLine rawLine))
            || containsSub (str "reading sentences") (lowerL (cleanLine rawLine))) = true
        · rw [if_pos h4, if_pos h4]
          simp [eraseFF, eraseIds, e6]
        · rw [if_neg h4, if_neg h4]
          by_cases h5 : (containsSub (str "dictation") (lowerL (cleanLine rawLine))
              || containsSub (str "part 8") (lowerL (cleanLine rawLine))) = true
          · rw [if_pos h5, if_pos h5]
            simp [eraseFF, eraseIds, e6]
          · rw [if_neg h5, if_neg h5]
            by_cases h6 : (containsSub (str "passage") (lowerL (cleanLine rawLine))
                || containsSub (str "story") (lowerL (cleanLine rawLine))
                || containsSub (str "part 9") (lowerL (cleanLine rawLine))) = true
            · rw [if_pos h6, if_pos h6]
              simp [eraseFF, eraseIds, e6]
            · rw [if_neg h6, if_neg h6]
              cases se1 with
              | quickDrill =>
                split_ifs <;> simp [eraseFF, eraseIds, e6]
              | hfw =>
                split_ifs <;> simp [eraseFF, eraseIds, e6]
              | wordCards =>
                split_ifs <;> simp [eraseFF, eraseIds, e6, assignIds_canonical]
              | sentences =>
                split_ifs <;> simp [eraseFF, eraseIds, e6]
              | passage =>
                simp [eraseFF, eraseIds, e6]
              | dictation =>
                apply dictLine_erase
                simp [eraseFF, eraseIds, e6]
              | none =>
                simp [eraseFF, eraseIds, e6]

theorem foldl_processLine_erase (gen gen' : Nat → List Char) :
    ∀ (ls : List (List Char)) (st st' : FFState), eraseFF st = eraseFF st' →
      eraseFF (ls.foldl (processLine gen) st) = eraseFF (ls.foldl (processLine gen') st') := by
  intro ls
  induction ls with
  | nil => intro st st' h; exact h
  | cons l rest ih =>
    intro st st' h
    exact ih _ _ (processLine_eraseFF gen gen' l st st' h)

theorem freeform_erase_aux (gen gen' : Nat → List Char) (ls : List (List Char))
    (e : LessonRec) (c c' : Nat) :
    eraseIds (ls.foldl (processLine gen) ⟨Sect.none, DictMode.none, e, c⟩).ext =
      eraseIds (ls.foldl (processLine gen') ⟨Sect.none, DictMode.none, e, c'⟩).ext := by
  have h := foldl_processLine_erase gen gen' ls ⟨Sect.none, DictMode.none, e, c⟩
      ⟨Sect.none, DictMode.none, e, c'⟩ (by simp [eraseFF])
  simpa [eraseFF] using congrArg FFState.ext h

theorem freeform_erase (gen gen' : Nat → List Char) (text : List Char) (c c' : Nat) :
    eraseIds (freeformParse gen text c).1 = eraseIds (freeformParse gen' text c').1 := by
  simp only [freeformParse]
  exact freeform_erase_aux gen gen' _ _ c c'


theorem parseF_erase (gen gen' : Nat → List Char) :
    ∀ (fuel : Nat) (text : List Char) (ts tss : Option (List Char)) (c c' : Nat),
      eraseRes (parseLessonTextF gen fuel text ts tss c) =
        eraseRes (parseLessonTextF gen' fuel text ts tss c') := by
  intro fuel
  induction fuel with
  | zero => intro text ts tss c c'; rfl
  | succ n ih =>
    intro text ts tss c c'
    simp only [parseLessonTextF]
    by_cases hcsv : isCSVB text = true
    · rw [if_pos hcsv, if_pos hcsv]
      cases hfd : findDataRow (buildIndices (parseCSVLine (trim ((splitNl text).headD []))))
          (targetIdOf ts tss) ((splitNl text).drop 1) with
      | error e => rfl
      | ok o =>
        cases o with
        | none =>
          simp only [eraseRes]
          rw [freeform_erase gen gen' text c c']
        | some dataRow =>
          simp only []
          rw [csvExtract_dict gen, csvExtract_dict gen']
          by_cases hne : (!(getColF (buildIndices (parseCSVLine (trim ((splitNl text).headD []))))
              dataRow [str "dictation"]).isEmpty) = true
          · rw [if_pos hne, if_pos hne]
            have hrec := ih (getColF (buildIndices (parseCSVLine (trim ((splitNl text).headD []))))
                dataRow [str "dictation"]) Option.none Option.none
                ((csvExtract gen (buildIndices (parseCSVLine (trim ((splitNl text).headD []))))
                  dataRow c).2).1
                ((csvExtract gen' (buildIndices (parseCSVLine (trim ((splitNl text).headD []))))
                  dataRow c').2).1
            cases hr : parseLessonTextF gen n
                (getColF (buildIndices (parseCSVLine (trim ((splitNl text).headD []))))
                  dataRow [str "dictation"]) Option.none Option.none
                ((csvExtract gen (buildIndices (parseCSVLine (trim ((splitNl text).headD []))))
                  dataRow c).2).1 with
            | ok p ctr3 =>
              cases hr' : parseLessonTextF gen' n
                  (getColF (buildIndices (parseCSVLine (trim ((splitNl text).headD []))))
                    dataRow [str "dictation"]) Option.none Option.none
                  ((csvExtract gen' (buildIndices (parseCSVLine (trim ((splitNl text).headD []))))
                    dataRow c').2).1 with
              | ok p2 ctr3b =>
                rw [hr, hr'] at hrec
                simp only [eraseRes, Res.ok.injEq] at hrec
                have hpd : p.dictation = p2.dictation :=
                  ((eraseIds_components hrec.1).2).2.1
                simp only []
                rw [← hpd]
                cases hd : p.dictation with
                | some d =>
                  simp only [eraseRes, Res.ok.injEq]
                  exact ⟨eraseIds_finalize ts tss
                    (eraseIds_set_dictation (some d) (csvExtract_erase gen gen' _ dataRow c c')),
                    trivial⟩
                | none =>
                  simp only [eraseRes, Res.ok.injEq]
                  exact ⟨eraseIds_finalize ts tss (csvExtract_erase gen gen' _ dataRow c c'),
                    trivial⟩
              | typeError =>
                rw [hr, hr'] at hrec
                simp [eraseRes] at hrec
              | fuelOut =>
                rw [hr, hr'] at hrec
                simp [eraseRes] at hrec
            | typeError =>
              cases hr' : parseLessonTextF gen' n
                  (getColF (buildIndices (parseCSVLine (trim ((splitNl text).headD []))))
                    dataRow [str "dictation"]) Option.none Option.none
                  ((csvExtract gen' (buildIndices (parseCSVLine (trim ((splitNl text).headD []))))
                    dataRow c').2).1 with
              | ok p2 ctr3b =>
                rw [hr, hr'] at hrec
                simp [eraseRes] at hrec
              | typeError => rfl
              | fuelOut =>
                rw [hr, hr'] at hrec
                simp [eraseRes] at hrec
            | fuelOut =>
              cases hr' : parseLessonTextF gen' n
                  (getColF (buildIndices (parseCSVLine (trim ((splitNl text).headD []))))
                    dataRow [str "dictation"]) Option.none Option.none
                  ((csvExtract gen' (buildIndices (parseCSVLine (trim ((splitNl text).headD []))))
                    dataRow c').2).1 with
              | ok p2 ctr3b =>
                rw [hr, hr'] at hrec
                simp [eraseRes] at hrec
              | typeError =>
                rw [hr, hr'] at hrec
                simp [eraseRes] at hrec
              | fuelOut => rfl
          · rw [if_neg hne, if_neg hne]
            simp only [eraseRes, Res.ok.injEq]
            exact ⟨eraseIds_finalize ts tss (csvExtract_erase gen gen' _ dataRow c c'), trivial⟩
    · rw [if_neg hcsv, if_neg hcsv]
      simp only [eraseRes]
      rw [freeform_erase gen gen' text c c']

/-- Claim C9 (refuted as stated): the records returned by two runs of the
importer on identical text and targets are NOT always equal including the
wordCards entries — each card id comes from the `Math.random`-based
`generateId`, modelled by the id-stream argument, and two runs with
different stream states give different ids on "Word Cards: cat". -/
theorem c9_counterexample :
    parseLessonText (fun _ => [Char.ofNat 97]) (str "Word Cards: cat") Option.none Option.none ≠
      parseLessonText (fun _ => [Char.ofNat 98]) (str "Word Cards: cat") Option.none Option.none := by
  decide

/-- Claim C9 (amended): the importer is deterministic up to the generated
card ids: for every input text and optional targets, two runs — whatever
their id-generator states — return results that agree after erasing the
card ids and the id counter; every other field, including the number and
order of wordCards and each card's text and type, is equal. -/
theorem c9_amended (gen gen' : Nat → List Char) (text : List Char)
    (ts tss : Option (List Char)) :
    eraseRes (parseLessonText gen text ts tss) = eraseRes (parseLessonText gen' text ts tss) := by
  simp only [parseLessonText]
  exact parseF_erase gen gen' (text.length + 1) text ts tss 0 0

theorem c10_importer_terminates_witness :
    ([] : List Char).length < 1 ∧
      parseLessonTextF gen0 1 [] Option.none Option.none 0 ≠ Res.fuelOut :=
  ⟨by decide, c10_importer_terminates gen0 1 [] Option.none Option.none 0 (by decide)⟩
